import Mathlib

/-!
Verification development for a propositional-logic formula engine
(`propositions/syntax.py`, `propositions/semantics.py`,
`propositions/operators.py`): immutable formula trees, two
recursive-descent parsers (fully parenthesized infix and polish
notation), substitution, truth-table semantics, synthesis from a truth
table, and operator-basis converters.

The Python code is embedded shallowly: formulas become an inductive
tree keyed by root strings, dictionaries become association lists,
fallible code (KeyError on a model lookup, ValueError on an unknown
operator, IndexError on an empty literal list, the various dead
`assert False` branches) returns `Option`/a tagged parse result.
Recursion that the Python interpreter runs unboundedly is fueled where
it is not structural, with the fuel chosen large enough and proved
sufficient.
-/

namespace MatLog

/-- `str.isdecimal` restricted to the ASCII decimal digits used by the
formula grammar. -/
def isDecimalChar (c : Char) : Bool := '0' ≤ c && c ≤ '9'

/-- Embeds `is_variable` (syntax.py): first character in `p`..`z`, and
either nothing after it or a nonempty run of decimal digits. -/
def is_variable (s : String) : Bool :=
  match s.data with
  | [] => false
  | c :: rest => 'p' ≤ c && c ≤ 'z' && (rest.isEmpty || rest.all isDecimalChar)

/-- Embeds `is_constant` (syntax.py). -/
def is_constant (s : String) : Bool := s == "T" || s == "F"

/-- Embeds `is_unary` (syntax.py). -/
def is_unary (s : String) : Bool := s == "~"

/-- Embeds `is_binary` (syntax.py). -/
def is_binary (s : String) : Bool :=
  s == "&" || s == "|" || s == "->" || s == "+" || s == "<->" || s == "-&" || s == "-|"

/-- Embeds the `Formula` class (syntax.py): an immutable tree whose
root is a string token; the constructor's assertions force exactly the
four shapes below (leaf variable, leaf constant, unary node, binary
node). -/
inductive Formula where
  | var (name : String)
  | const (name : String)
  | unary (op : String) (first : Formula)
  | binary (op : String) (first : Formula) (second : Formula)
deriving DecidableEq, Repr

/-- The well-formedness invariant that `Formula.__init__` enforces with
its classifier assertions: every root token passes the classifier
matching its shape. -/
def Formula.WF : Formula → Bool
  | .var n => is_variable n
  | .const c => is_constant c
  | .unary op f => is_unary op && f.WF
  | .binary op f g => is_binary op && f.WF && g.WF

/-- Embeds `Formula.__repr__` (syntax.py): the canonical infix string. -/
def Formula.toStr : Formula → String
  | .var n => n
  | .const c => c
  | .unary op f => op ++ f.toStr
  | .binary op f g => "(" ++ f.toStr ++ op ++ g.toStr ++ ")"

/-- Embeds `Formula.variables` (syntax.py); the Python method returns a
set, embedded here as the list of variable occurrences (set operations
downstream deduplicate explicitly). -/
def Formula.variables : Formula → List String
  | .var n => [n]
  | .const _ => []
  | .unary _ f => f.variables
  | .binary _ f g => f.variables ++ g.variables

/-- Embeds `Formula.operators` (syntax.py): all operator and constant
tokens (not variables), as the list of occurrences. -/
def Formula.operators : Formula → List String
  | .var _ => []
  | .const c => [c]
  | .unary op f => op :: f.operators
  | .binary op f g => op :: (f.operators ++ g.operators)

example : is_variable "q76" = true := by decide
example : is_variable "T" = false := by decide
example : is_binary "<->" = true := by decide
example : (Formula.binary "&" (.var "p") (.var "q76")).toStr = "(p&q76)" := by decide

/-- The result of a prefix-parsing step; Python returns the pair
`(formula, remainder)` on success and `(None, message)` on failure,
which this sum represents exactly. -/
inductive ParseResult where
  | ok (formula : Formula) (remainder : List Char)
  | error (message : String)
deriving DecidableEq, Repr

/-- The longest-match-first binary-operator tokenizer that both parsers
duplicate (syntax.py `_parse_prefix` lines 222-229 and `parse_polish`
lines 315-322): try the 3-, then 2-, then 1-character candidate prefix
against `is_binary`.  The Python loop runs over lengths
`min(3, len(s))..1`; when the input is shorter than a candidate length,
`List.take` truncates just as the Python slice does, so the branches
below test exactly the same candidates in the same order. -/
def matchOp (s : List Char) : Option (List Char × List Char) :=
  if is_binary (String.mk (s.take 3)) then some (s.take 3, s.drop 3)
  else if is_binary (String.mk (s.take 2)) then some (s.take 2, s.drop 2)
  else if is_binary (String.mk (s.take 1)) then some (s.take 1, s.drop 1)
  else none

/-- Embeds `Formula._parse_prefix` (syntax.py).  The recursion in the
Python code is on ever-shorter suffixes of the input; here the
recursion is driven by a fuel counter that the wrapper below
instantiates with more than the input length, which is proved
sufficient (`parsePrefixFuel` never returns the fuel-exhaustion marker
at that fuel).  The variable branch merges Python's nested
`if in 'p'..'z'` / `if is_variable(...)` tests into one guard; the
inner test always succeeds when the outer one does, so the combined
fall-through behavior is identical. -/
def parsePrefixFuel : Nat → List Char → ParseResult
  | 0, _ => .error "fuel exhausted"
  | fuel + 1, s =>
    match s with
    | [] => .error "Unexpected end of input"
    | c :: rest =>
      if is_constant (String.mk [c]) then .ok (.const (String.mk [c])) rest
      else if ('p' ≤ c && c ≤ 'z') &&
          is_variable (String.mk (c :: rest.takeWhile isDecimalChar)) then
        .ok (.var (String.mk (c :: rest.takeWhile isDecimalChar)))
          (rest.dropWhile isDecimalChar)
      else if is_unary (String.mk [c]) then
        match parsePrefixFuel fuel rest with
        | .error msg => .error msg
        | .ok f rem => .ok (.unary (String.mk [c]) f) rem
      else if c = '(' then
        match parsePrefixFuel fuel rest with
        | .error msg => .error msg
        | .ok first rem =>
          if rem = [] then .error "Expected binary operator"
          else
            match matchOp rem with
            | none => .error "Expected binary operator"
            | some (op, rem2) =>
              match parsePrefixFuel fuel rem2 with
              | .error msg => .error msg
              | .ok second rem3 =>
                match rem3 with
                | ')' :: rem4 => .ok (.binary (String.mk op) first second) rem4
                | _ => .error "Expected closing parenthesis"
      else .error "Invalid formula"

/-- `Formula._parse_prefix` at the sufficient fuel. -/
def parsePrefixRun (s : List Char) : ParseResult :=
  parsePrefixFuel (s.length + 1) s

/-- Embeds `Formula.is_formula` (syntax.py). -/
def Formula.is_formula (s : String) : Bool :=
  match parsePrefixRun s.data with
  | .ok _ [] => true
  | _ => false

/-- Embeds `Formula.parse` (syntax.py): defined exactly on the strings
accepted by `is_formula` (on other inputs the Python function fails its
assertion, embedded as `none`). -/
def Formula.parse (s : String) : Option Formula :=
  match parsePrefixRun s.data with
  | .ok f [] => some f
  | _ => none

/-- Embeds `Formula.polish` (syntax.py). -/
def Formula.polish : Formula → String
  | .var n => n
  | .const c => c
  | .unary op f => op ++ f.polish
  | .binary op f g => op ++ f.polish ++ g.polish

/-- Embeds the inner `parse_prefix` of `Formula.parse_polish`
(syntax.py), fueled like `parsePrefixFuel`.  The binary-operator
candidates are taken from the whole remaining string (there is no
parenthesis), and a failed match reports `Invalid formula`. -/
def parsePolishFuel : Nat → List Char → ParseResult
  | 0, _ => .error "fuel exhausted"
  | fuel + 1, s =>
    match s with
    | [] => .error "Unexpected end of input"
    | c :: rest =>
      if is_constant (String.mk [c]) then .ok (.const (String.mk [c])) rest
      else if ('p' ≤ c && c ≤ 'z') &&
          is_variable (String.mk (c :: rest.takeWhile isDecimalChar)) then
        .ok (.var (String.mk (c :: rest.takeWhile isDecimalChar)))
          (rest.dropWhile isDecimalChar)
      else if is_unary (String.mk [c]) then
        match parsePolishFuel fuel rest with
        | .error msg => .error msg
        | .ok f rem => .ok (.unary (String.mk [c]) f) rem
      else
        match matchOp s with
        | none => .error "Invalid formula"
        | some (op, rem) =>
          match parsePolishFuel fuel rem with
          | .error msg => .error msg
          | .ok first rem2 =>
            match parsePolishFuel fuel rem2 with
            | .error msg => .error msg
            | .ok second rem3 => .ok (.binary (String.mk op) first second) rem3

/-- Embeds `Formula.parse_polish` (syntax.py): the Python function
asserts that the inner parser succeeded with empty remainder, embedded
as `none` on failure. -/
def Formula.parse_polish (s : String) : Option Formula :=
  match parsePolishFuel (s.data.length + 1) s.data with
  | .ok f [] => some f
  | _ => none

/-- Dictionary lookup on an association list, first binding wins (the
keys are unique in every dictionary the code builds). -/
def assocLookup {α : Type} : List (String × α) → String → Option α
  | [], _ => none
  | (k, v) :: rest, x => if k = x then some v else assocLookup rest x

/-- Embeds `Formula.substitute_variables` (syntax.py): one simultaneous
pass, replacing exactly the mapped variable occurrences of the original
formula. -/
def Formula.substitute_variables : Formula → List (String × Formula) → Formula
  | .var n, sub =>
    match assocLookup sub n with
    | some g => g
    | none => .var n
  | .const c, _ => .const c
  | .unary op f, sub => .unary op (f.substitute_variables sub)
  | .binary op f g, sub =>
    .binary op (f.substitute_variables sub) (g.substitute_variables sub)

/-- Embeds `Formula.substitute_operators` (syntax.py): mapped constant
and operator occurrences are replaced by instantiating the template via
variable substitution, with `p` bound to the recursively substituted
first operand and `q` to the second. -/
def Formula.substitute_operators : Formula → List (String × Formula) → Formula
  | .var n, _ => .var n
  | .const c, sub =>
    match assocLookup sub c with
    | some t => t
    | none => .const c
  | .unary op f, sub =>
    let sf := f.substitute_operators sub
    match assocLookup sub op with
    | some t => t.substitute_variables [("p", sf)]
    | none => .unary op sf
  | .binary op f g, sub =>
    let sf := f.substitute_operators sub
    let sg := g.substitute_operators sub
    match assocLookup sub op with
    | some t => t.substitute_variables [("p", sf), ("q", sg)]
    | none => .binary op sf sg

example : Formula.parse "~(p&q76)" =
    some (.unary "~" (.binary "&" (.var "p") (.var "q76"))) := by decide
example : Formula.parse "(p<->q)" = some (.binary "<->" (.var "p") (.var "q")) := by decide
example : Formula.parse "(p" = none := by decide
example : Formula.parse_polish "<->pq" = some (.binary "<->" (.var "p") (.var "q")) := by decide
example : Formula.parse_polish "~&p1q2" =
    some (.unary "~" (.binary "&" (.var "p1") (.var "q2"))) := by decide
example : (Formula.parse "((p->p)|r)").bind
    (fun f => (Formula.parse "(q&r)").bind fun g => (Formula.parse "p").map fun h =>
      f.substitute_variables [("p", g), ("r", h)]) =
    Formula.parse "(((q&r)->(q&r))|p)" := by decide
example : (Formula.parse "((x&y)&~z)").bind
    (fun f => (Formula.parse "~(~p|~q)").map fun t =>
      f.substitute_operators [("&", t)]) =
    Formula.parse "~(~~(~x|~y)|~~z)" := by decide

/-- A model (semantics.py): a Python dictionary from variable names to
truth values, embedded as an association list with unique keys. -/
abbrev Model := List (String × Bool)

/-- Embeds `evaluate` (semantics.py).  A missing-variable lookup (a
`KeyError`, equivalently the failed subset assertion) and the
unknown-operator `ValueError` are embedded as `none`; both operand
values of a binary node are computed before the operator dispatch, as
in the source. -/
def evaluate : Formula → Model → Option Bool
  | .const c, _ => some (c == "T")
  | .var n, m => assocLookup m n
  | .unary _ f, m => (evaluate f m).map (!·)
  | .binary op f g, m =>
    match evaluate f m, evaluate g m with
    | some a, some b =>
      if op = "&" then some (a && b)
      else if op = "|" then some (a || b)
      else if op = "->" then some (!a || b)
      else if op = "+" then some (a != b)
      else if op = "<->" then some (a == b)
      else if op = "-&" then some (!(a && b))
      else if op = "-|" then some (!(a || b))
      else none
    | _, _ => none

/-- Insertion of one key into a Python dictionary: an existing key
keeps its position and gets the new value, a fresh key is appended. -/
def dictInsert (m : Model) (k : String) (v : Bool) : Model :=
  if m.any (fun p => p.1 == k) then
    m.map (fun p => if p.1 == k then (k, v) else p)
  else m ++ [(k, v)]

/-- `dict(zip(variables, values))` (semantics.py `all_models`): the
dictionary built by inserting the zipped pairs left to right, so that
on duplicate keys the later value wins, as in Python. -/
def dictOfZip (vars : List String) (values : List Bool) : Model :=
  (vars.zip values).foldl (fun d p => dictInsert d p.1 p.2) []

/-- The value tuples of `itertools.product([False, True], repeat=n)` in
order: the first coordinate is the slowest-changing one. -/
def boolTuples : Nat → List (List Bool)
  | 0 => [[]]
  | n + 1 =>
    ((boolTuples n).map (fun t => false :: t)) ++
      ((boolTuples n).map (fun t => true :: t))

/-- Embeds `all_models` (semantics.py), with the lazy generator
materialized as the list of its yields. -/
def all_models (vars : List String) : List Model :=
  (boolTuples vars.length).map (fun values => dictOfZip vars values)

/-- Embeds `truth_values` (semantics.py): the generator materialized as
a list; an evaluation error anywhere aborts the iteration, hence
`Option` on the list. -/
def truth_values (formula : Formula) (models : List Model) : Option (List Bool) :=
  models.mapM (fun model => evaluate formula model)

/-- `sorted` on strings: Python sorts strings lexicographically by code
point; this is insertion sort with that order. -/
def charListLe : List Char → List Char → Bool
  | [], _ => true
  | _ :: _, [] => false
  | c :: cs, d :: ds =>
    if c < d then true else if d < c then false else charListLe cs ds

/-- Boolean string comparison matching Python's `<=` on strings. -/
def strLe (a b : String) : Bool := charListLe a.data b.data

/-- One insertion step of the string insertion sort. -/
def insertStr (x : String) : List String → List String
  | [] => [x]
  | y :: ys => if strLe x y then x :: y :: ys else y :: insertStr x ys

/-- `sorted(l)` for a list of strings. -/
def sortStrs (l : List String) : List String := l.foldr insertStr []

/-- Set formation (`set(...)`) on a list of names: keep one occurrence
of each. -/
def removeDups : List String → List String
  | [] => []
  | x :: rest =>
    let r := removeDups rest
    if x ∈ r then r else x :: r

/-- `sorted(formula.variables())` (semantics.py): the sorted list of
the distinct variable names of a formula. -/
def sortedVariables (f : Formula) : List String := sortStrs (removeDups f.variables)

/-- Embeds `is_tautology` (semantics.py): `all` over the truth values
in every model over the formula's own sorted variables. -/
def is_tautology (f : Formula) : Option Bool :=
  (truth_values f (all_models (sortedVariables f))).map (fun l => l.all id)

/-- Embeds `is_contradiction` (semantics.py): `not any(...)`. -/
def is_contradiction (f : Formula) : Option Bool :=
  (truth_values f (all_models (sortedVariables f))).map (fun l => !(l.any id))

/-- Embeds `is_satisfiable` (semantics.py): `any(...)`. -/
def is_satisfiable (f : Formula) : Option Bool :=
  (truth_values f (all_models (sortedVariables f))).map (fun l => l.any id)

/-- Embeds `_synthesize_for_model` (semantics.py): the conjunctive
clause over the sorted keys of the model; `literals[0]` on an empty
model raises, embedded as `none`. -/
def synthesizeForModel (model : Model) : Option Formula :=
  let literals := (sortStrs (model.map Prod.fst)).map
    (fun v => if assocLookup model v = some true then Formula.var v
              else Formula.unary "~" (Formula.var v))
  match literals with
  | [] => none
  | l :: ls => some (ls.foldl (fun acc lit => Formula.binary "&" acc lit) l)

/-- Embeds `synthesize` (semantics.py): the DNF over the models whose
zipped value is true; with no true value, the fixed unsatisfiable
formula over the first variable (`variables[0]` on an empty list
raises, embedded as `none`). -/
def synthesize (vars : List String) (values : List Bool) : Option Formula :=
  let models := all_models vars
  (((models.zip values).filter (fun p => p.2)).mapM
      (fun p => synthesizeForModel p.1)).bind fun clauses =>
    match clauses with
    | [] =>
      match vars with
      | [] => none
      | v :: _ =>
        some (.binary "&" (.var v) (.unary "~" (.var v)))
    | c :: cs => some (cs.foldl (fun acc cl => Formula.binary "|" acc cl) c)

/-- Embeds `_synthesize_for_all_except_model` (semantics.py): the
disjunctive clause false exactly at the given model. -/
def synthesizeForAllExceptModel (model : Model) : Option Formula :=
  let literals := (sortStrs (model.map Prod.fst)).map
    (fun v => if assocLookup model v = some true then Formula.unary "~" (Formula.var v)
              else Formula.var v)
  match literals with
  | [] => none
  | l :: ls => some (ls.foldl (fun acc lit => Formula.binary "|" acc lit) l)

/-- Embeds `synthesize_cnf` (semantics.py): the CNF over the models
whose zipped value is false; with no false value, the fixed tautology
over the first variable. -/
def synthesize_cnf (vars : List String) (values : List Bool) : Option Formula :=
  let models := all_models vars
  (((models.zip values).filter (fun p => !p.2)).mapM
      (fun p => synthesizeForAllExceptModel p.1)).bind fun clauses =>
    match clauses with
    | [] =>
      match vars with
      | [] => none
      | v :: _ =>
        some (.binary "|" (.var v) (.unary "~" (.var v)))
    | c :: cs => some (cs.foldl (fun acc cl => Formula.binary "&" acc cl) c)

example : (Formula.parse "~(p&q76)").bind
    (fun f => evaluate f [("p", true), ("q76", false)]) = some true := by decide
example : (Formula.parse "~(p&q76)").bind
    (fun f => evaluate f [("p", true), ("q76", true)]) = some false := by decide
example : all_models ["p", "q"] =
    [[("p", false), ("q", false)], [("p", false), ("q", true)],
     [("p", true), ("q", false)], [("p", true), ("q", true)]] := by decide
example : all_models ([] : List String) = [[]] := by decide
example : (Formula.parse "~(p&q76)").bind
    (fun f => truth_values f (all_models ["p", "q76"])) =
    some [true, true, true, false] := by decide
example : is_tautology (.const "T") = some true := by decide
example : is_contradiction (.const "F") = some true := by decide
example : is_satisfiable (.const "F") = some false := by decide
example : (synthesize ["p", "q"] [true, true, true, false]).bind
    (fun g => truth_values g (all_models ["p", "q"])) =
    some [true, true, true, false] := by decide
example : (synthesize_cnf ["p", "q"] [true, true, true, false]).bind
    (fun g => truth_values g (all_models ["p", "q"])) =
    some [true, true, true, false] := by decide
example : synthesize ["p", "q"] [false, false, false, false] =
    some (.binary "&" (.var "p") (.unary "~" (.var "p"))) := by decide
example : (synthesize ["p", "p"] [true, false, false, false]).bind
    (fun g => truth_values g (all_models ["p", "p"])) =
    some [true, false, true, false] := by decide

/-- Node count of a formula tree, used only to fuel the inner `convert`
helpers of operators.py (whose constant branches recurse through a
converted constant rather than through a subtree). -/
def Formula.size : Formula → Nat
  | .var _ => 1
  | .const _ => 1
  | .unary _ f => f.size + 1
  | .binary _ f g => f.size + g.size + 1

/-- Embeds `to_not_and_or` (operators.py): constants are rewritten via
the variable `p`, the derived binary operators via their `~`/`&`/`|`
definitions; the trailing `raise ValueError` for an unclassifiable
operator is embedded as `none`. -/
def to_not_and_or : Formula → Option Formula
  | .var n => some (.var n)
  | .const c =>
    if c = "T" then some (.binary "|" (.var "p") (.unary "~" (.var "p")))
    else some (.binary "&" (.var "p") (.unary "~" (.var "p")))
  | .unary _ f => (to_not_and_or f).map (fun g => .unary "~" g)
  | .binary op f g =>
    (to_not_and_or f).bind fun first =>
      (to_not_and_or g).bind fun second =>
        if op = "&" || op = "|" then some (.binary op first second)
        else if op = "->" then some (.binary "|" (.unary "~" first) second)
        else if op = "<->" then
          some (.binary "|" (.binary "&" first second)
            (.binary "&" (.unary "~" first) (.unary "~" second)))
        else if op = "+" then
          some (.binary "|" (.binary "&" first (.unary "~" second))
            (.binary "&" (.unary "~" first) second))
        else if op = "-&" then some (.unary "~" (.binary "&" first second))
        else if op = "-|" then some (.unary "~" (.binary "|" first second))
        else none

/-- Embeds the inner `convert` of `to_not_and` (operators.py); the
constant branch re-enters through `to_not_and_or`, which is why this
helper is fueled; the `assert False` fall-through (a binary operator
other than `&`/`|`) is embedded as `none`. -/
def notAndConvert : Nat → Formula → Option Formula
  | 0, _ => none
  | fuel + 1, f =>
    match f with
    | .var n => some (.var n)
    | .unary _ g => (notAndConvert fuel g).map (fun h => .unary "~" h)
    | .binary op g h =>
      if op = "&" then
        (notAndConvert fuel g).bind fun l =>
          (notAndConvert fuel h).map fun r => .binary "&" l r
      else if op = "|" then
        (notAndConvert fuel g).bind fun l =>
          (notAndConvert fuel h).map fun r =>
            .unary "~" (.binary "&" (.unary "~" l) (.unary "~" r))
      else none
    | .const c => (to_not_and_or (.const c)).bind (notAndConvert fuel)

/-- Embeds `to_not_and` (operators.py): `convert(to_not_and_or(formula))`. -/
def to_not_and (formula : Formula) : Option Formula :=
  (to_not_and_or formula).bind fun g => notAndConvert g.size g

/-- Embeds the inner `convert` of `to_nand` (operators.py). -/
def nandConvert : Nat → Formula → Option Formula
  | 0, _ => none
  | fuel + 1, f =>
    match f with
    | .var n => some (.var n)
    | .unary _ g =>
      (nandConvert fuel g).map fun inner => .binary "-&" inner inner
    | .binary op g h =>
      if op = "&" then
        (nandConvert fuel g).bind fun l =>
          (nandConvert fuel h).map fun r =>
            .binary "-&" (.binary "-&" l r) (.binary "-&" l r)
      else none
    | .const c => (to_not_and (.const c)).bind (nandConvert fuel)

/-- Embeds `to_nand` (operators.py): `convert(to_not_and(formula))`. -/
def to_nand (formula : Formula) : Option Formula :=
  (to_not_and formula).bind fun g => nandConvert g.size g

/-- Embeds the inner `convert` of `to_implies_not` (operators.py). -/
def impliesNotConvert : Nat → Formula → Option Formula
  | 0, _ => none
  | fuel + 1, f =>
    match f with
    | .var n => some (.var n)
    | .unary _ g => (impliesNotConvert fuel g).map (fun h => .unary "~" h)
    | .binary op g h =>
      if op = "&" then
        (impliesNotConvert fuel g).bind fun l =>
          (impliesNotConvert fuel h).map fun r =>
            .unary "~" (.binary "->" l (.unary "~" r))
      else if op = "|" then
        (impliesNotConvert fuel g).bind fun l =>
          (impliesNotConvert fuel h).map fun r => .binary "->" (.unary "~" l) r
      else none
    | .const c => (to_not_and_or (.const c)).bind (impliesNotConvert fuel)

/-- Embeds `to_implies_not` (operators.py):
`convert(to_not_and_or(formula))`. -/
def to_implies_not (formula : Formula) : Option Formula :=
  (to_not_and_or formula).bind fun g => impliesNotConvert g.size g

/-- Embeds the inner `convert` of `to_implies_false` (operators.py). -/
def impliesFalseConvert : Nat → Formula → Option Formula
  | 0, _ => none
  | fuel + 1, f =>
    match f with
    | .var n => some (.var n)
    | .const c =>
      if c = "F" then some (.const "F")
      else some (.binary "->" (.const "F") (.const "F"))
    | .unary _ g =>
      (impliesFalseConvert fuel g).map fun inner => .binary "->" inner (.const "F")
    | .binary op g h =>
      if op = "->" then
        (impliesFalseConvert fuel g).bind fun l =>
          (impliesFalseConvert fuel h).map fun r => .binary "->" l r
      else none

/-- Embeds `to_implies_false` (operators.py):
`convert(to_implies_not(formula))`.  (The inner `convert` here has no
non-structural recursion, but is fueled uniformly with its siblings.) -/
def to_implies_false (formula : Formula) : Option Formula :=
  (to_implies_not formula).bind fun g => impliesFalseConvert g.size g

example : (to_not_and_or (.const "T")).bind (fun g => evaluate g []) = none := by decide
example : evaluate (.const "T") [] = some true := by decide
example :
    ((Formula.parse "(p+T)").bind to_nand).bind (fun g => evaluate g [("p", true)]) =
      some false ∧
    ((Formula.parse "(p+T)").bind to_nand).bind (fun g => evaluate g [("p", false)]) =
      some true ∧
    ((Formula.parse "(q<->~F)").bind to_implies_false).bind
      (fun g => evaluate g [("p", true), ("q", false)]) = some false ∧
    ((Formula.parse "(q<->~F)").bind to_implies_false).bind
      (fun g => evaluate g [("p", false), ("q", true)]) = some true ∧
    ((Formula.parse "(q-|r)").bind to_not_and).bind
      (fun g => evaluate g [("q", false), ("r", false)]) = some true ∧
    ((Formula.parse "(q-|r)").bind to_implies_not).bind
      (fun g => evaluate g [("q", true), ("r", false)]) = some false := by decide

/-! ### Shared helper lemmas -/

lemma string_mk_eq_iff {a b : List Char} : String.mk a = String.mk b ↔ a = b := by
  constructor
  · intro h
    injection h
  · intro h
    rw [h]

lemma string_mk_beq {a b : List Char} :
    (String.mk a == String.mk b) = decide (a = b) := by
  by_cases h : a = b
  · subst h
    simp
  · simp [h, string_mk_eq_iff]

/-- Is every name of the list bound in the model? (`m`'s keys cover `l`.) -/
def coversB (m : Model) (l : List String) : Bool :=
  l.all fun v => (assocLookup m v).isSome

lemma coversB_append {m : Model} {l₁ l₂ : List String} :
    coversB m (l₁ ++ l₂) = (coversB m l₁ && coversB m l₂) := by
  simp [coversB, List.all_append]

lemma coversB_cons {m : Model} {v : String} {l : List String} :
    coversB m (v :: l) = ((assocLookup m v).isSome && coversB m l) := by
  simp [coversB]

lemma beq_string_false {a b : List Char} (h : a ≠ b) :
    (String.mk a == String.mk b) = false := by
  rw [string_mk_beq]
  exact decide_eq_false h

lemma is_binary_mk_false {l : List Char} (h1 : l ≠ ['&']) (h2 : l ≠ ['|'])
    (h3 : l ≠ ['-', '>']) (h4 : l ≠ ['+']) (h5 : l ≠ ['<', '-', '>'])
    (h6 : l ≠ ['-', '&']) (h7 : l ≠ ['-', '|']) :
    is_binary (String.mk l) = false := by
  have e1 : ("&" : String) = String.mk ['&'] := rfl
  have e2 : ("|" : String) = String.mk ['|'] := rfl
  have e3 : ("->" : String) = String.mk ['-', '>'] := rfl
  have e4 : ("+" : String) = String.mk ['+'] := rfl
  have e5 : ("<->" : String) = String.mk ['<', '-', '>'] := rfl
  have e6 : ("-&" : String) = String.mk ['-', '&'] := rfl
  have e7 : ("-|" : String) = String.mk ['-', '|'] := rfl
  simp only [is_binary, e1, e2, e3, e4, e5, e6, e7, beq_string_false h1,
    beq_string_false h2, beq_string_false h3, beq_string_false h4,
    beq_string_false h5, beq_string_false h6, beq_string_false h7,
    Bool.or_self, Bool.or_false]

lemma singleton_ne {c d : Char} (h : c ≠ d) : [c] ≠ [d] := by
  intro hc
  exact h (by injection hc)

lemma is_constant_mk_false {c : Char} (h1 : c ≠ 'T') (h2 : c ≠ 'F') :
    is_constant (String.mk [c]) = false := by
  have e1 : ("T" : String) = String.mk ['T'] := rfl
  have e2 : ("F" : String) = String.mk ['F'] := rfl
  simp only [is_constant, e1, e2, beq_string_false (singleton_ne h1),
    beq_string_false (singleton_ne h2), Bool.or_false]

lemma is_unary_mk_false {c : Char} (h : c ≠ '~') :
    is_unary (String.mk [c]) = false := by
  have e : ("~" : String) = String.mk ['~'] := rfl
  simp only [is_unary, e, beq_string_false (singleton_ne h)]

/-! ### C6: longest-first binary-operator tokenization -/

lemma take_three_arrow (c : Char) (_r' : List Char) :
    is_binary (String.mk ['-', '>', c]) = false := by
  apply is_binary_mk_false <;> simp

/-- C6: both parsers tokenize the binary operator at a compound
boundary longest-first (3-, then 2-, then 1-character candidates), so
`<->` is one token (never `<` then `->`) and `->` is one token (never
`-` then `>`); in particular `(p<->q)` parses with root `<->`. -/
theorem C6_longest_match_tokenization :
    (∀ r : List Char, matchOp ('<' :: '-' :: '>' :: r) = some (['<', '-', '>'], r)) ∧
    (∀ r : List Char, matchOp ('-' :: '>' :: r) = some (['-', '>'], r)) ∧
    Formula.parse "(p<->q)" = some (.binary "<->" (.var "p") (.var "q")) ∧
    Formula.parse "(p->q)" = some (.binary "->" (.var "p") (.var "q")) ∧
    Formula.parse_polish "<->pq" = some (.binary "<->" (.var "p") (.var "q")) ∧
    Formula.parse_polish "->pq" = some (.binary "->" (.var "p") (.var "q")) := by
  refine ⟨?_, ?_, by decide, by decide, by decide, by decide⟩
  · intro r
    simp only [matchOp, List.take, List.drop]
    rw [if_pos (by decide)]
  · intro r
    cases r with
    | nil => decide
    | cons c r' =>
      simp only [matchOp, List.take, List.drop]
      rw [if_neg (by rw [take_three_arrow c r']; simp), if_pos (by decide)]

/-- C6 applied at a concrete remainder. -/
theorem C6_longest_match_tokenization_witness :
    matchOp ('<' :: '-' :: '>' :: ['q', ')']) = some (['<', '-', '>'], ['q', ')']) :=
  C6_longest_match_tokenization.1 ['q', ')']

/-! ### C7: variable substitution is one simultaneous pass -/

/-- C7: `substitute_variables` replaces exactly the mapped variable
occurrences of the original formula by their mapped formulas as
subtrees, leaves unmapped variables, constants and operator structure
unchanged, and never substitutes inside a substituted-in formula; in
particular the spec's example
`((p->p)|r){p := (q&r), r := p} = (((q&r)->(q&r))|p)` holds. -/
theorem C7_substitute_variables_single_pass :
    ((Formula.parse "((p->p)|r)").bind
      (fun f => (Formula.parse "(q&r)").bind fun g => (Formula.parse "p").map fun h =>
        f.substitute_variables [("p", g), ("r", h)]) =
      Formula.parse "(((q&r)->(q&r))|p)") ∧
    (∀ sub v g, assocLookup sub v = some g →
      (Formula.var v).substitute_variables sub = g) ∧
    (∀ sub v, assocLookup sub v = none →
      (Formula.var v).substitute_variables sub = .var v) ∧
    (∀ sub c, (Formula.const c).substitute_variables sub = .const c) ∧
    (∀ sub op f, (Formula.unary op f).substitute_variables sub =
      .unary op (f.substitute_variables sub)) ∧
    (∀ sub op f g, (Formula.binary op f g).substitute_variables sub =
      .binary op (f.substitute_variables sub) (g.substitute_variables sub)) := by
  refine ⟨by decide, ?_, ?_, ?_, ?_, ?_⟩
  · intro sub v g h
    simp [Formula.substitute_variables, h]
  · intro sub v h
    simp [Formula.substitute_variables, h]
  · intro sub c
    rfl
  · intro sub op f
    rfl
  · intro sub op f g
    rfl

/-- C7 applied at a concrete mapped variable. -/
theorem C7_substitute_variables_single_pass_witness :
    (Formula.var "p").substitute_variables [("p", Formula.const "T")] =
      Formula.const "T" :=
  C7_substitute_variables_single_pass.2.1 [("p", Formula.const "T")] "p"
    (Formula.const "T") (by decide)

/-! ### C8: operator substitution instantiates templates via `p`, `q` -/

/-- C8: `substitute_operators` rewrites every mapped constant/operator
occurrence by instantiating its template through variable substitution,
with `p` bound to the recursively substituted first operand and `q` to
the second; unmapped tokens keep their root over recursively
substituted children and variables pass through; in particular the
spec's example `((x&y)&~z){& := ~(~p|~q)} = ~(~~(~x|~y)|~~z)` holds. -/
theorem C8_substitute_operators_template_instantiation :
    ((Formula.parse "((x&y)&~z)").bind
      (fun f => (Formula.parse "~(~p|~q)").map fun t =>
        f.substitute_operators [("&", t)]) =
      Formula.parse "~(~~(~x|~y)|~~z)") ∧
    (∀ sub n, (Formula.var n).substitute_operators sub = .var n) ∧
    (∀ sub c t, assocLookup sub c = some t →
      (Formula.const c).substitute_operators sub = t) ∧
    (∀ sub c, assocLookup sub c = none →
      (Formula.const c).substitute_operators sub = .const c) ∧
    (∀ sub op f t, assocLookup sub op = some t →
      (Formula.unary op f).substitute_operators sub =
        t.substitute_variables [("p", f.substitute_operators sub)]) ∧
    (∀ sub op f, assocLookup sub op = none →
      (Formula.unary op f).substitute_operators sub =
        .unary op (f.substitute_operators sub)) ∧
    (∀ sub op f g t, assocLookup sub op = some t →
      (Formula.binary op f g).substitute_operators sub =
        t.substitute_variables [("p", f.substitute_operators sub),
          ("q", g.substitute_operators sub)]) ∧
    (∀ sub op f g, assocLookup sub op = none →
      (Formula.binary op f g).substitute_operators sub =
        .binary op (f.substitute_operators sub) (g.substitute_operators sub)) := by
  refine ⟨by decide, ?_, ?_, ?_, ?_, ?_, ?_, ?_⟩
  · intro sub n
    rfl
  · intro sub c t h
    simp [Formula.substitute_operators, h]
  · intro sub c h
    simp [Formula.substitute_operators, h]
  · intro sub op f t h
    simp [Formula.substitute_operators, h]
  · intro sub op f h
    simp [Formula.substitute_operators, h]
  · intro sub op f g t h
    simp [Formula.substitute_operators, h]
  · intro sub op f g h
    simp [Formula.substitute_operators, h]

/-! ### C4: `evaluate` computes the standard truth tables -/

/-- C4: `evaluate` is the standard recursive truth-value computation:
the constants `T`/`F` are literally true/false, a variable is the
model's value for it, `~` negates, and the binary operators `&`, `|`,
`->`, `+`, `<->`, `-&`, `-|` have their standard truth tables; in
particular the two literal examples for `~(p&q76)` hold. -/
theorem C4_evaluate_truth_tables :
    (∀ m : Model, evaluate (.const "T") m = some true) ∧
    (∀ m : Model, evaluate (.const "F") m = some false) ∧
    (∀ (m : Model) (n : String) (b : Bool), assocLookup m n = some b →
      evaluate (.var n) m = some b) ∧
    (∀ (m : Model) (f : Formula) (a : Bool), evaluate f m = some a →
      evaluate (.unary "~" f) m = some (!a)) ∧
    (∀ (m : Model) (f g : Formula) (a b : Bool),
      evaluate f m = some a → evaluate g m = some b →
      evaluate (.binary "&" f g) m = some (a && b) ∧
      evaluate (.binary "|" f g) m = some (a || b) ∧
      evaluate (.binary "->" f g) m = some (!a || b) ∧
      evaluate (.binary "+" f g) m = some (a != b) ∧
      evaluate (.binary "<->" f g) m = some (a == b) ∧
      evaluate (.binary "-&" f g) m = some (!(a && b)) ∧
      evaluate (.binary "-|" f g) m = some (!(a || b))) ∧
    ((Formula.parse "~(p&q76)").bind
      (fun f => evaluate f [("p", true), ("q76", false)]) = some true) ∧
    ((Formula.parse "~(p&q76)").bind
      (fun f => evaluate f [("p", true), ("q76", true)]) = some false) := by
  refine ⟨fun m => rfl, fun m => rfl, ?_, ?_, ?_, by decide, by decide⟩
  · intro m n b h
    simp [evaluate, h]
  · intro m f a h
    simp [evaluate, h]
  · intro m f g a b hf hg
    refine ⟨?_, ?_, ?_, ?_, ?_, ?_, ?_⟩ <;> simp [evaluate, hf, hg]

/-- C4 applied at a concrete model and concrete operands. -/
theorem C4_evaluate_truth_tables_witness :
    evaluate (.binary "&" (.var "p") (.const "F")) [("p", true)] =
      some (true && false) :=
  (C4_evaluate_truth_tables.2.2.2.2.1 [("p", true)] (.var "p") (.const "F")
    true false (by decide) (by decide)).1

/-! ### Facts about `boolTuples`, `dictInsert`, `dictOfZip` -/

lemma length_boolTuples (n : Nat) : (boolTuples n).length = 2 ^ n := by
  induction n with
  | zero => rfl
  | succ n ih => simp [boolTuples, ih, Nat.pow_succ]; omega

lemma length_mem_boolTuples {n : Nat} {t : List Bool} (h : t ∈ boolTuples n) :
    t.length = n := by
  induction n generalizing t with
  | zero =>
    simp [boolTuples] at h
    simp [h]
  | succ n ih =>
    simp only [boolTuples, List.mem_append, List.mem_map] at h
    rcases h with ⟨u, hu, rfl⟩ | ⟨u, hu, rfl⟩ <;> simp [ih hu]

lemma mem_boolTuples {n : Nat} {t : List Bool} (h : t.length = n) :
    t ∈ boolTuples n := by
  induction n generalizing t with
  | zero =>
    rw [List.length_eq_zero] at h
    simp [h, boolTuples]
  | succ n ih =>
    cases t with
    | nil => simp at h
    | cons b u =>
      simp only [List.length_cons, Nat.succ.injEq] at h
      cases b
      · exact List.mem_append_left _ (List.mem_map.mpr ⟨u, ih h, rfl⟩)
      · exact List.mem_append_right _ (List.mem_map.mpr ⟨u, ih h, rfl⟩)

lemma nodup_boolTuples (n : Nat) : (boolTuples n).Nodup := by
  induction n with
  | zero => simp [boolTuples]
  | succ n ih =>
    refine List.Nodup.append ?_ ?_ ?_
    · exact ih.map fun a b hab => by injection hab
    · exact ih.map fun a b hab => by injection hab
    · intro a ha hb
      rcases List.mem_map.mp ha with ⟨u, _, rfl⟩
      rcases List.mem_map.mp hb with ⟨v, _, hv⟩
      simp at hv

lemma dictInsert_fresh {m : Model} {k : String} {v : Bool}
    (h : ∀ q ∈ m, q.1 ≠ k) : dictInsert m k v = m ++ [(k, v)] := by
  have : m.any (fun p => p.1 == k) = false := by
    simp only [List.any_eq_false]
    intro q hq
    simpa using h q hq
  simp [dictInsert, this]

lemma foldl_dictInsert_fresh :
    ∀ (ps : List (String × Bool)) (acc : Model),
      (∀ r ∈ ps, ∀ q ∈ acc, q.1 ≠ r.1) → (ps.map Prod.fst).Nodup →
      ps.foldl (fun d p => dictInsert d p.1 p.2) acc = acc ++ ps := by
  intro ps
  induction ps with
  | nil => simp
  | cons x xs ih =>
    intro acc hfresh hnd
    rw [List.map_cons, List.nodup_cons] at hnd
    obtain ⟨hx, hnd'⟩ := hnd
    simp only [List.foldl_cons]
    rw [dictInsert_fresh (hfresh x (List.mem_cons_self x xs))]
    rw [ih (acc ++ [x]) ?_ hnd']
    · simp
    · intro r hr q hq
      rcases List.mem_append.mp hq with hq | hq
      · exact hfresh r (List.mem_cons_of_mem x hr) q hq
      · have hqx : q = x := by simpa using hq
        subst hqx
        intro hc
        exact hx (hc ▸ List.mem_map_of_mem Prod.fst hr)

lemma dictOfZip_eq_zip {vs : List String} {t : List Bool}
    (hnd : vs.Nodup) (hl : t.length = vs.length) : dictOfZip vs t = vs.zip t := by
  unfold dictOfZip
  rw [foldl_dictInsert_fresh (vs.zip t) [] (by simp) ?_]
  · simp
  · rw [List.map_fst_zip vs t (by omega)]
    exact hnd

lemma map_fst_dictOfZip {vs : List String} {t : List Bool}
    (hnd : vs.Nodup) (hl : t.length = vs.length) :
    (dictOfZip vs t).map Prod.fst = vs := by
  rw [dictOfZip_eq_zip hnd hl]
  exact List.map_fst_zip vs t (by omega)

lemma map_snd_dictOfZip {vs : List String} {t : List Bool}
    (hnd : vs.Nodup) (hl : t.length = vs.length) :
    (dictOfZip vs t).map Prod.snd = t := by
  rw [dictOfZip_eq_zip hnd hl]
  exact List.map_snd_zip vs t (by omega)

/-! ### C5: `all_models` enumerates every model in order -/

/-- Strict lexicographic order on boolean tuples with `false` before
`true` (the spec's model enumeration order). -/
def boolLex : List Bool → List Bool → Bool
  | a :: as, b :: bs => (!a && b) || (a == b && boolLex as bs)
  | _, _ => false

lemma chain'_boolTuples (n : Nat) :
    List.Chain' (fun t t' => boolLex t t' = true) (boolTuples n) := by
  induction n with
  | zero => simp [boolTuples]
  | succ n ih =>
    refine List.Chain'.append ?_ ?_ ?_
    · exact (List.chain'_map _).mpr (ih.imp fun a b hab => by simp [boolLex, hab])
    · exact (List.chain'_map _).mpr (ih.imp fun a b hab => by simp [boolLex, hab])
    · intro x hx y hy
      rw [List.getLast?_map] at hx
      rw [List.head?_map] at hy
      rcases Option.map_eq_some'.mp hx with ⟨u, _, rfl⟩
      rcases Option.map_eq_some'.mp hy with ⟨v, _, rfl⟩
      simp [boolLex]

/-- C5: over distinct variable names, `all_models` yields exactly
`2 ^ |vs|` models, each with key list exactly `vs` in order, the value
rows strictly increasing in the lexicographic order with `false` before
`true` (last variable fastest), every value row of the right length
occurring; the `["p","q"]` enumeration is the spec's literal list. -/
theorem C5_all_models_enumeration :
    (∀ vs : List String, vs.Nodup → vs.all is_variable = true →
      (all_models vs).length = 2 ^ vs.length ∧
      (∀ m ∈ all_models vs, m.map Prod.fst = vs) ∧
      List.Chain' (fun t t' => boolLex t t' = true)
        ((all_models vs).map (fun m => m.map Prod.snd)) ∧
      (∀ t : List Bool, t.length = vs.length → vs.zip t ∈ all_models vs)) ∧
    all_models ["p", "q"] =
      [[("p", false), ("q", false)], [("p", false), ("q", true)],
       [("p", true), ("q", false)], [("p", true), ("q", true)]] := by
  refine ⟨?_, by decide⟩
  intro vs hnd _hvar
  refine ⟨?_, ?_, ?_, ?_⟩
  · simp [all_models, length_boolTuples]
  · intro m hm
    rcases List.mem_map.mp hm with ⟨t, ht, rfl⟩
    exact map_fst_dictOfZip hnd (length_mem_boolTuples ht)
  · have hrows : (all_models vs).map (fun m => m.map Prod.snd) = boolTuples vs.length := by
      rw [all_models, List.map_map]
      have h2 : ∀ t ∈ boolTuples vs.length,
          ((fun m : Model => m.map Prod.snd) ∘ (fun values => dictOfZip vs values)) t =
            id t := by
        intro t ht
        simp only [Function.comp_apply, id]
        exact map_snd_dictOfZip hnd (length_mem_boolTuples ht)
      rw [List.map_congr_left h2, List.map_id]
    rw [hrows]
    exact chain'_boolTuples vs.length
  · intro t ht
    rw [all_models]
    refine List.mem_map.mpr ⟨t, mem_boolTuples ht, ?_⟩
    rw [dictOfZip_eq_zip hnd ht]

/-- C5 applied at the concrete variable list `["p", "q"]`. -/
theorem C5_all_models_enumeration_witness :
    (all_models ["p", "q"]).length = 2 ^ 2 :=
  (C5_all_models_enumeration.1 ["p", "q"] (by decide) (by decide)).1

/-! ### Consumption and totality of the infix parser -/

lemma matchOp_consumes {s op r : List Char} (h : matchOp s = some (op, r)) :
    r.length < s.length := by
  cases s with
  | nil =>
    simp [matchOp, show is_binary (String.mk []) = false from by decide] at h
  | cons c s' =>
    simp only [matchOp] at h
    split at h
    · injection h with h2
      injection h2 with hop hr
      subst hr
      simp only [List.length_drop, List.length_cons]
      omega
    · split at h
      · injection h with h2
        injection h2 with hop hr
        subst hr
        simp only [List.length_drop, List.length_cons]
        omega
      · split at h
        · injection h with h2
          injection h2 with hop hr
          subst hr
          simp only [List.length_drop, List.length_cons]
          omega
        · exact absurd h (by simp)

lemma length_dropWhile_le (p : Char → Bool) (l : List Char) :
    (l.dropWhile p).length ≤ l.length := by
  induction l with
  | nil => simp
  | cons a l ih =>
    by_cases h : p a
    · simp only [List.dropWhile_cons, h, if_pos, List.length_cons]
      omega
    · simp [List.dropWhile_cons, h]

lemma parsePrefixFuel_consumes :
    ∀ (fuel : Nat) {s : List Char} {f : Formula} {r : List Char},
      parsePrefixFuel fuel s = .ok f r → r.length < s.length := by
  intro fuel
  induction fuel with
  | zero =>
    intro s f r h
    simp [parsePrefixFuel] at h
  | succ n ih =>
    intro s f r h
    cases s with
    | nil => simp [parsePrefixFuel] at h
    | cons c rest =>
      simp only [parsePrefixFuel] at h
      split at h
      · injection h with hf hr
        subst hr
        simp
      · split at h
        · injection h with hf hr
          subst hr
          have hd := length_dropWhile_le isDecimalChar rest
          simp only [List.length_cons]
          omega
        · split at h
          · split at h
            · exact absurd h (by simp)
            · rename_i f1 rem heq
              injection h with hf hr
              subst hr
              have h1 := ih heq
              simp only [List.length_cons]
              omega
          · split at h
            · split at h
              · exact absurd h (by simp)
              · rename_i first rem heq
                split at h
                · exact absurd h (by simp)
                · split at h
                  · exact absurd h (by simp)
                  · rename_i op rem2 heq2
                    split at h
                    · exact absurd h (by simp)
                    · rename_i second rem3 heq3
                      split at h
                      · rename_i rem4
                        injection h with hf hr
                        subst hr
                        have h1 := ih heq
                        have h2 := matchOp_consumes heq2
                        have h3 := ih heq3
                        simp only [List.length_cons] at h3 ⊢
                        omega
                      · exact absurd h (by simp)
            · exact absurd h (by simp)

/-- The four error messages of `Formula._parse_prefix`, one per
failure category: input exhaustion, invalid leading character, missing
binary operator, missing closing parenthesis. -/
def fourMessages : List String :=
  ["Unexpected end of input", "Invalid formula",
   "Expected binary operator", "Expected closing parenthesis"]

/-- Either a successful parse, or a failure carrying one of the four
category messages. -/
def OkOr4 (res : ParseResult) : Prop :=
  (∃ f r, res = .ok f r) ∨ (∃ msg, res = .error msg ∧ msg ∈ fourMessages)

lemma parsePrefixFuel_total :
    ∀ (fuel : Nat) (s : List Char), s.length < fuel →
      OkOr4 (parsePrefixFuel fuel s) := by
  intro fuel
  induction fuel with
  | zero =>
    intro s h
    omega
  | succ n ih =>
    intro s hs
    cases s with
    | nil =>
      exact Or.inr ⟨"Unexpected end of input", by simp [parsePrefixFuel], by decide⟩
    | cons c rest =>
      have hrest : rest.length < n := by
        simp only [List.length_cons] at hs
        omega
      simp only [parsePrefixFuel]
      split
      · exact Or.inl ⟨_, _, rfl⟩
      · split
        · exact Or.inl ⟨_, _, rfl⟩
        · split
          · split
            · rename_i msg heq
              rcases ih rest hrest with ⟨f, r, hok⟩ | ⟨msg', herr, hmem⟩
              · rw [heq] at hok
                exact absurd hok (by simp)
              · rw [heq] at herr
                injection herr with hm
                exact Or.inr ⟨msg, rfl, by rw [hm]; exact hmem⟩
            · exact Or.inl ⟨_, _, rfl⟩
          · split
            · split
              · rename_i msg heq
                rcases ih rest hrest with ⟨f, r, hok⟩ | ⟨msg', herr, hmem⟩
                · rw [heq] at hok
                  exact absurd hok (by simp)
                · rw [heq] at herr
                  injection herr with hm
                  exact Or.inr ⟨msg, rfl, by rw [hm]; exact hmem⟩
              · rename_i first rem heq
                split
                · exact Or.inr ⟨_, rfl, by decide⟩
                · split
                  · exact Or.inr ⟨_, rfl, by decide⟩
                  · rename_i op rem2 heq2
                    have hrem : rem.length < rest.length :=
                      parsePrefixFuel_consumes n heq
                    have hrem2 : rem2.length < rem.length := matchOp_consumes heq2
                    split
                    · rename_i msg heq3
                      rcases ih rem2 (by omega) with ⟨f, r, hok⟩ | ⟨msg', herr, hmem⟩
                      · rw [heq3] at hok
                        exact absurd hok (by simp)
                      · rw [heq3] at herr
                        injection herr with hm
                        exact Or.inr ⟨msg, rfl, by rw [hm]; exact hmem⟩
                    · rename_i second rem3 heq3
                      split
                      · exact Or.inl ⟨_, _, rfl⟩
                      · exact Or.inr ⟨_, rfl, by decide⟩
            · exact Or.inr ⟨_, rfl, by decide⟩

/-- C9: `_parse_prefix` never raises: on every input it returns either
a formula with the unparsed remainder or a tagged failure with a
human-readable message, the message is always one of the four category
messages (input exhaustion / invalid leading character / missing binary
operator / missing closing parenthesis), those four are pairwise
distinct, and a failure is distinguishable from every success. -/
theorem C9_parse_error_reporting :
    (∀ s : List Char, (∃ f r, parsePrefixRun s = .ok f r) ∨
      (∃ msg, parsePrefixRun s = .error msg ∧ msg ∈ fourMessages)) ∧
    (∀ (f : Formula) (r : List Char) (msg : String),
      (ParseResult.ok f r : ParseResult) ≠ .error msg) ∧
    List.Nodup fourMessages ∧
    parsePrefixRun [] = .error "Unexpected end of input" ∧
    parsePrefixRun "@p".data = .error "Invalid formula" ∧
    parsePrefixRun "(p".data = .error "Expected binary operator" ∧
    parsePrefixRun "(p?q)".data = .error "Expected binary operator" ∧
    parsePrefixRun "(p&q".data = .error "Expected closing parenthesis" ∧
    parsePrefixRun "(p&q)r7".data =
      .ok (.binary "&" (.var "p") (.var "q")) ['r', '7'] := by
  refine ⟨?_, ?_, by decide, by decide, by decide, by decide, by decide, by decide,
    by decide⟩
  · intro s
    exact parsePrefixFuel_total (s.length + 1) s (Nat.lt_succ_self _)
  · intro f r msg h
    exact ParseResult.noConfusion h

/-- C9 applied at a concrete failing input. -/
theorem C9_parse_error_reporting_witness :
    (∃ f r, parsePrefixRun ['('] = .ok f r) ∨
      (∃ msg, parsePrefixRun ['('] = .error msg ∧ msg ∈ fourMessages) :=
  C9_parse_error_reporting.1 ['(']

/-! ### Round-trip helpers -/

/-- Classifier inversion: the seven binary-operator tokens. -/
lemma is_binary_cases {op : String} (h : is_binary op = true) :
    op = "&" ∨ op = "|" ∨ op = "->" ∨ op = "+" ∨ op = "<->" ∨ op = "-&" ∨ op = "-|" := by
  have h' := h
  simp only [is_binary, Bool.or_eq_true, beq_iff_eq] at h'
  tauto

lemma is_unary_eq {op : String} (h : is_unary op = true) : op = "~" := by
  simpa [is_unary] using h

lemma is_constant_cases {c : String} (h : is_constant c = true) : c = "T" ∨ c = "F" := by
  simpa [is_constant] using h

/-- The parsers scan digit runs greedily after a variable head, so a
round trip needs the following text to not begin with a digit. -/
def restOK : List Char → Bool
  | [] => true
  | c :: _ => !(isDecimalChar c)

lemma restOK_append {l r : List Char} (hl : l ≠ []) (h : restOK l = true) :
    restOK (l ++ r) = true := by
  cases l with
  | nil => exact absurd rfl hl
  | cons c l' => simpa [restOK] using h

lemma takeWhile_append_all {l r : List Char}
    (hl : ∀ c ∈ l, isDecimalChar c = true) (hr : restOK r = true) :
    (l ++ r).takeWhile isDecimalChar = l := by
  induction l with
  | nil =>
    cases r with
    | nil => rfl
    | cons c r' =>
      have : isDecimalChar c = false := by simpa [restOK] using hr
      simp [List.takeWhile_cons, this]
  | cons a l' ih =>
    have ha := hl a (List.mem_cons_self a l')
    simp only [List.cons_append, List.takeWhile_cons, ha, if_pos]
    rw [ih (fun c hc => hl c (List.mem_cons_of_mem a hc))]

lemma dropWhile_append_all {l r : List Char}
    (hl : ∀ c ∈ l, isDecimalChar c = true) (hr : restOK r = true) :
    (l ++ r).dropWhile isDecimalChar = r := by
  induction l with
  | nil =>
    cases r with
    | nil => rfl
    | cons c r' =>
      have : isDecimalChar c = false := by simpa [restOK] using hr
      simp [List.dropWhile_cons, this]
  | cons a l' ih =>
    have ha := hl a (List.mem_cons_self a l')
    simp only [List.cons_append, List.dropWhile_cons, ha, if_pos]
    exact ih (fun c hc => hl c (List.mem_cons_of_mem a hc))

lemma matchOp_single {c : Char} (hc : is_binary (String.mk [c]) = true)
    (h3 : ∀ c1 c2, is_binary (String.mk [c, c1, c2]) = false)
    (h2 : ∀ c1, is_binary (String.mk [c, c1]) = false) (r : List Char) :
    matchOp (c :: r) = some ([c], r) := by
  cases r with
  | nil => simp [matchOp, hc]
  | cons c1 r' =>
    cases r' with
    | nil =>
      simp only [matchOp, List.take, List.drop]
      rw [if_neg (by rw [h2 c1]; simp), if_neg (by rw [h2 c1]; simp), if_pos hc]
    | cons c2 r'' =>
      simp only [matchOp, List.take, List.drop]
      rw [if_neg (by rw [h3 c1 c2]; simp), if_neg (by rw [h2 c1]; simp), if_pos hc]

lemma matchOp_dash {x : Char} (hx : is_binary (String.mk ['-', x]) = true)
    (h3 : ∀ c, is_binary (String.mk ['-', x, c]) = false) (r : List Char) :
    matchOp ('-' :: x :: r) = some (['-', x], r) := by
  cases r with
  | nil => simp [matchOp, hx]
  | cons c r' =>
    simp only [matchOp, List.take, List.drop]
    rw [if_neg (by rw [h3 c]; simp), if_pos hx]

lemma matchOp_arrow3 (r : List Char) :
    matchOp ('<' :: '-' :: '>' :: r) = some (['<', '-', '>'], r) := by
  simp only [matchOp, List.take, List.drop]
  rw [if_pos (by decide)]

/-- Longest-first matching recovers exactly a printed binary-operator
token: for every binary operator `op` and any following text,
`matchOp` consumes exactly `op`. -/
lemma matchOp_exact {op : String} (hop : is_binary op = true) (r : List Char) :
    matchOp (op.data ++ r) = some (op.data, r) := by
  rcases is_binary_cases hop with h | h | h | h | h | h | h <;> subst h
  · exact matchOp_single (by decide)
      (fun c1 c2 => is_binary_mk_false (by simp) (by simp) (by simp) (by simp)
        (by simp) (by simp) (by simp))
      (fun c1 => is_binary_mk_false (by simp) (by simp) (by simp) (by simp)
        (by simp) (by simp) (by simp)) r
  · exact matchOp_single (by decide)
      (fun c1 c2 => is_binary_mk_false (by simp) (by simp) (by simp) (by simp)
        (by simp) (by simp) (by simp))
      (fun c1 => is_binary_mk_false (by simp) (by simp) (by simp) (by simp)
        (by simp) (by simp) (by simp)) r
  · exact matchOp_dash (by decide)
      (fun c => is_binary_mk_false (by simp) (by simp) (by simp) (by simp)
        (by simp) (by simp) (by simp)) r
  · exact matchOp_single (by decide)
      (fun c1 c2 => is_binary_mk_false (by simp) (by simp) (by simp) (by simp)
        (by simp) (by simp) (by simp))
      (fun c1 => is_binary_mk_false (by simp) (by simp) (by simp) (by simp)
        (by simp) (by simp) (by simp)) r
  · exact matchOp_arrow3 r
  · exact matchOp_dash (by decide)
      (fun c => is_binary_mk_false (by simp) (by simp) (by simp) (by simp)
        (by simp) (by simp) (by simp)) r
  · exact matchOp_dash (by decide)
      (fun c => is_binary_mk_false (by simp) (by simp) (by simp) (by simp)
        (by simp) (by simp) (by simp)) r

/-- Nesting depth of a formula tree, used to bound the parser fuel. -/
def Formula.depth : Formula → Nat
  | .var _ => 0
  | .const _ => 0
  | .unary _ f => f.depth + 1
  | .binary _ f g => max f.depth g.depth + 1

lemma restOK_cons (c : Char) (l : List Char) :
    restOK (c :: l) = !(isDecimalChar c) := rfl

lemma is_binary_data_ne_nil {op : String} (hop : is_binary op = true) :
    op.data ≠ [] := by
  rcases is_binary_cases hop with h | h | h | h | h | h | h <;> subst h <;> decide

lemma is_binary_restOK {op : String} (hop : is_binary op = true) (r : List Char) :
    restOK (op.data ++ r) = true := by
  rcases is_binary_cases hop with h | h | h | h | h | h | h <;> subst h <;>
    rw [show (restOK _ = true) = (restOK _ = true) from rfl] <;>
    simp only [String.data] <;> rw [List.cons_append, restOK_cons] <;> decide

lemma depth_lt_toStr_length : ∀ f : Formula, f.WF = true →
    f.depth < f.toStr.data.length := by
  intro f
  induction f with
  | var n =>
    intro hwf
    simp only [Formula.depth, Formula.toStr]
    cases n with
    | mk nd =>
      cases nd with
      | nil => exact absurd hwf (by decide)
      | cons c ds => simp
  | const c =>
    intro hwf
    rcases is_constant_cases hwf with h | h <;> subst h <;> decide
  | unary op f ihf =>
    intro hwf
    rcases (Bool.and_eq_true _ _).mp hwf with ⟨h1, h2⟩
    have hop := is_unary_eq h1
    subst hop
    have hf := ihf h2
    simp only [Formula.depth, Formula.toStr, String.data_append]
    simp only [List.length_append]
    have h9 : (("~" : String).data).length = 1 := rfl
    have h8 : ((['~'] : List Char)).length = 1 := rfl
    omega
  | binary op f g ihf ihg =>
    intro hwf
    rcases (Bool.and_eq_true _ _).mp hwf with ⟨h12, h3⟩
    rcases (Bool.and_eq_true _ _).mp h12 with ⟨h1, h2⟩
    have hf := ihf h2
    have hg := ihg h3
    have hop : 1 ≤ op.data.length := by
      have := is_binary_data_ne_nil h1
      cases hd : op.data with
      | nil => exact absurd hd this
      | cons a b => simp
    simp only [Formula.depth, Formula.toStr, String.data_append, List.length_append]
    have h4 : (("(" : String).data).length = 1 := rfl
    have h5 : ((")" : String).data).length = 1 := rfl
    have h6 : ((['('] : List Char)).length = 1 := rfl
    have h7 : (([')'] : List Char)).length = 1 := rfl
    omega

lemma depth_lt_polish_length : ∀ f : Formula, f.WF = true →
    f.depth < f.polish.data.length := by
  intro f
  induction f with
  | var n =>
    intro hwf
    simp only [Formula.depth, Formula.polish]
    cases n with
    | mk nd =>
      cases nd with
      | nil => exact absurd hwf (by decide)
      | cons c ds => simp
  | const c =>
    intro hwf
    rcases is_constant_cases hwf with h | h <;> subst h <;> decide
  | unary op f ihf =>
    intro hwf
    rcases (Bool.and_eq_true _ _).mp hwf with ⟨h1, h2⟩
    have hop := is_unary_eq h1
    subst hop
    have hf := ihf h2
    simp only [Formula.depth, Formula.polish, String.data_append, List.length_append]
    have h9 : (("~" : String).data).length = 1 := rfl
    have h8 : ((['~'] : List Char)).length = 1 := rfl
    omega
  | binary op f g ihf ihg =>
    intro hwf
    rcases (Bool.and_eq_true _ _).mp hwf with ⟨h12, h3⟩
    rcases (Bool.and_eq_true _ _).mp h12 with ⟨h1, h2⟩
    have hf := ihf h2
    have hg := ihg h3
    have hop : 1 ≤ op.data.length := by
      have := is_binary_data_ne_nil h1
      cases hd : op.data with
      | nil => exact absurd hd this
      | cons a b => simp
    simp only [Formula.depth, Formula.polish, String.data_append, List.length_append]
    omega

/-- Printing then reparsing recovers a well-formed formula: the parser
consumes exactly the printed text, for any following text that does not
begin with a decimal digit. -/
lemma parse_toStr_roundtrip :
    ∀ f : Formula, f.WF = true → ∀ (fuel : Nat) (rest : List Char),
      f.depth < fuel → restOK rest = true →
      parsePrefixFuel fuel (f.toStr.data ++ rest) = .ok f rest := by
  intro f
  induction f with
  | var n =>
    intro hwf fuel rest hd hr
    cases fuel with
    | zero => omega
    | succ k =>
      obtain ⟨nd⟩ := n
      cases nd with
      | nil => exact absurd hwf (by decide)
      | cons c ds =>
        have hvar : is_variable (String.mk (c :: ds)) = true := hwf
        have hwf' := hwf
        simp only [Formula.WF, is_variable, Bool.and_eq_true, decide_eq_true_eq]
          at hwf'
        obtain ⟨⟨hp, hz⟩, hds⟩ := hwf'
        have hall : ∀ c' ∈ ds, isDecimalChar c' = true := by
          rcases (Bool.or_eq_true _ _).mp hds with h | h
          · intro c' hc'
            rw [List.isEmpty_iff] at h
            subst h
            exact absurd hc' (List.not_mem_nil c')
          · intro c' hc'
            exact List.all_eq_true.mp h c' hc'
        have hconst : is_constant (String.mk [c]) = false :=
          is_constant_mk_false
            (fun hT => by subst hT; revert hp; decide)
            (fun hF => by subst hF; revert hp; decide)
        show parsePrefixFuel (k + 1) (c :: (ds ++ rest)) = _
        simp only [parsePrefixFuel]
        rw [takeWhile_append_all hall hr, dropWhile_append_all hall hr]
        rw [if_neg (by simp [hconst]), if_pos (by simp [hp, hz, hvar])]
  | const cc =>
    intro hwf fuel rest hd hr
    cases fuel with
    | zero => omega
    | succ k =>
      rcases is_constant_cases hwf with h | h <;> subst h
      · show parsePrefixFuel (k + 1) ('T' :: rest) = _
        simp only [parsePrefixFuel]
        rw [if_pos (by decide)]
      · show parsePrefixFuel (k + 1) ('F' :: rest) = _
        simp only [parsePrefixFuel]
        rw [if_pos (by decide)]
  | unary op f ihf =>
    intro hwf fuel rest hd hr
    cases fuel with
    | zero => omega
    | succ k =>
      rcases (Bool.and_eq_true _ _).mp hwf with ⟨h1, h2⟩
      have hop := is_unary_eq h1
      subst hop
      have hdf : f.depth < k := by
        simp only [Formula.depth] at hd
        omega
      show parsePrefixFuel (k + 1) ('~' :: (f.toStr.data ++ rest)) = _
      simp only [parsePrefixFuel]
      rw [if_neg (by decide), if_neg ?hguard, if_pos (by decide)]
      case hguard =>
        have hzz : (decide ('p' ≤ '~') && decide ('~' ≤ 'z')) = false := by decide
        rw [hzz]
        simp
      rw [ihf h2 k rest hdf hr]
  | binary op f g ihf ihg =>
    intro hwf fuel rest hd hr
    cases fuel with
    | zero => omega
    | succ k =>
      rcases (Bool.and_eq_true _ _).mp hwf with ⟨h12, h3⟩
      rcases (Bool.and_eq_true _ _).mp h12 with ⟨h1, h2⟩
      have hdf : f.depth < k := by
        simp only [Formula.depth] at hd
        omega
      have hdg : g.depth < k := by
        simp only [Formula.depth] at hd
        omega
      have hstr : (Formula.binary op f g).toStr.data ++ rest =
          '(' :: (f.toStr.data ++ (op.data ++ (g.toStr.data ++ (')' :: rest)))) := by
        simp only [Formula.toStr, String.data_append]
        simp [List.append_assoc]
      rw [hstr]
      simp only [parsePrefixFuel]
      rw [if_neg (by decide), if_neg ?hguard2, if_neg (by decide), if_pos trivial]
      case hguard2 =>
        have hzz : (decide ('p' ≤ '(') && decide ('(' ≤ 'z')) = false := by decide
        rw [hzz]
        simp
      simp only [ihf h2 k _ hdf (is_binary_restOK h1 _)]
      rw [if_neg (by simp [is_binary_data_ne_nil h1])]
      simp only [matchOp_exact h1 (g.toStr.data ++ (')' :: rest))]
      simp only [ihg h3 k (')' :: rest) hdg (by rw [restOK_cons]; decide)]
/-- The polish text of a well-formed formula never starts with a
decimal digit, so it can safely follow a printed variable. -/
lemma polish_head_restOK : ∀ f : Formula, f.WF = true → ∀ r : List Char,
    restOK (f.polish.data ++ r) = true := by
  intro f hwf r
  cases f with
  | var n =>
    obtain ⟨nd⟩ := n
    cases nd with
    | nil => exact absurd hwf (by decide)
    | cons c ds =>
      have hwf' := hwf
      simp only [Formula.WF, is_variable, Bool.and_eq_true, decide_eq_true_eq]
        at hwf'
      obtain ⟨⟨hp, hz⟩, -⟩ := hwf'
      show restOK (c :: (ds ++ r)) = true
      rw [restOK_cons]
      have h9 : isDecimalChar c = false := by
        simp only [isDecimalChar]
        have hc9 : ¬(c ≤ '9') := fun hc => absurd (le_trans hp hc) (by decide)
        simp [hc9]
      rw [h9]
      rfl
  | const cc =>
    rcases is_constant_cases hwf with h | h <;> subst h
    · show restOK ('T' :: r) = true
      rw [restOK_cons]
      decide
    · show restOK ('F' :: r) = true
      rw [restOK_cons]
      decide
  | unary op f =>
    rcases (Bool.and_eq_true _ _).mp hwf with ⟨h1, h2⟩
    have hop := is_unary_eq h1
    subst hop
    show restOK ('~' :: (f.polish.data ++ r)) = true
    rw [restOK_cons]
    decide
  | binary op f g =>
    rcases (Bool.and_eq_true _ _).mp hwf with ⟨h12, h3⟩
    rcases (Bool.and_eq_true _ _).mp h12 with ⟨h1, h2⟩
    have hsplit : (Formula.binary op f g).polish.data ++ r =
        op.data ++ (f.polish.data ++ (g.polish.data ++ r)) := by
      simp only [Formula.polish, String.data_append]
      simp [List.append_assoc]
    rw [hsplit]
    exact is_binary_restOK h1 _

/-- The head character of every binary-operator token fails all three
leaf/unary checks of the polish parser. -/
lemma binary_head_checks {op : String} (hop : is_binary op = true) :
    ∃ c t, op.data = c :: t ∧ is_constant (String.mk [c]) = false ∧
      (decide ('p' ≤ c) && decide (c ≤ 'z')) = false ∧
      is_unary (String.mk [c]) = false := by
  rcases is_binary_cases hop with h | h | h | h | h | h | h <;> subst h <;>
    exact ⟨_, _, rfl, by decide, by decide, by decide⟩

/-- Printing in polish notation then reparsing recovers a well-formed
formula, for any following text that does not begin with a digit. -/
lemma parse_polish_roundtrip :
    ∀ f : Formula, f.WF = true → ∀ (fuel : Nat) (rest : List Char),
      f.depth < fuel → restOK rest = true →
      parsePolishFuel fuel (f.polish.data ++ rest) = .ok f rest := by
  intro f
  induction f with
  | var n =>
    intro hwf fuel rest hd hr
    cases fuel with
    | zero => omega
    | succ k =>
      obtain ⟨nd⟩ := n
      cases nd with
      | nil => exact absurd hwf (by decide)
      | cons c ds =>
        have hvar : is_variable (String.mk (c :: ds)) = true := hwf
        have hwf' := hwf
        simp only [Formula.WF, is_variable, Bool.and_eq_true, decide_eq_true_eq]
          at hwf'
        obtain ⟨⟨hp, hz⟩, hds⟩ := hwf'
        have hall : ∀ c' ∈ ds, isDecimalChar c' = true := by
          rcases (Bool.or_eq_true _ _).mp hds with h | h
          · intro c' hc'
            rw [List.isEmpty_iff] at h
            subst h
            exact absurd hc' (List.not_mem_nil c')
          · intro c' hc'
            exact List.all_eq_true.mp h c' hc'
        have hconst : is_constant (String.mk [c]) = false :=
          is_constant_mk_false
            (fun hT => by subst hT; revert hp; decide)
            (fun hF => by subst hF; revert hp; decide)
        show parsePolishFuel (k + 1) (c :: (ds ++ rest)) = _
        simp only [parsePolishFuel]
        rw [takeWhile_append_all hall hr, dropWhile_append_all hall hr]
        rw [if_neg (by simp [hconst]), if_pos (by simp [hp, hz, hvar])]
  | const cc =>
    intro hwf fuel rest hd hr
    cases fuel with
    | zero => omega
    | succ k =>
      rcases is_constant_cases hwf with h | h <;> subst h
      · show parsePolishFuel (k + 1) ('T' :: rest) = _
        simp only [parsePolishFuel]
        rw [if_pos (by decide)]
      · show parsePolishFuel (k + 1) ('F' :: rest) = _
        simp only [parsePolishFuel]
        rw [if_pos (by decide)]
  | unary op f ihf =>
    intro hwf fuel rest hd hr
    cases fuel with
    | zero => omega
    | succ k =>
      rcases (Bool.and_eq_true _ _).mp hwf with ⟨h1, h2⟩
      have hop := is_unary_eq h1
      subst hop
      have hdf : f.depth < k := by
        simp only [Formula.depth] at hd
        omega
      show parsePolishFuel (k + 1) ('~' :: (f.polish.data ++ rest)) = _
      simp only [parsePolishFuel]
      rw [if_neg (by decide), if_neg ?hguardp, if_pos (by decide)]
      case hguardp =>
        have hzz : (decide ('p' ≤ '~') && decide ('~' ≤ 'z')) = false := by decide
        rw [hzz]
        simp
      rw [ihf h2 k rest hdf hr]
  | binary op f g ihf ihg =>
    intro hwf fuel rest hd hr
    cases fuel with
    | zero => omega
    | succ k =>
      rcases (Bool.and_eq_true _ _).mp hwf with ⟨h12, h3⟩
      rcases (Bool.and_eq_true _ _).mp h12 with ⟨h1, h2⟩
      have hdf : f.depth < k := by
        simp only [Formula.depth] at hd
        omega
      have hdg : g.depth < k := by
        simp only [Formula.depth] at hd
        omega
      obtain ⟨c, t, hdata, hc1, hc2, hc3⟩ := binary_head_checks h1
      have hsplit : (Formula.binary op f g).polish.data ++ rest =
          c :: (t ++ (f.polish.data ++ (g.polish.data ++ rest))) := by
        simp only [Formula.polish, String.data_append, hdata]
        simp [List.append_assoc]
      rw [hsplit]
      simp only [parsePolishFuel]
      rw [if_neg (by simp [hc1]), if_neg (by rw [hc2]; simp),
        if_neg (by simp [hc3])]
      have hback : c :: (t ++ (f.polish.data ++ (g.polish.data ++ rest))) =
          op.data ++ (f.polish.data ++ (g.polish.data ++ rest)) := by
        rw [hdata]
        simp
      rw [hback]
      simp only [matchOp_exact h1 (f.polish.data ++ (g.polish.data ++ rest))]
      simp only [ihf h2 k (g.polish.data ++ rest) hdf (polish_head_restOK g h3 rest)]
      simp only [ihg h3 k rest hdg hr]
/-- C2: for every formula built via the public constructor (every
well-formed tree), parsing the canonical infix string gives back the
very formula, and parsing the polish string likewise round-trips. -/
theorem C2_round_trip :
    ∀ f : Formula, f.WF = true →
      Formula.parse f.toStr = some f ∧ Formula.parse_polish f.polish = some f := by
  intro f hwf
  constructor
  · have h := parse_toStr_roundtrip f hwf (f.toStr.data.length + 1) []
      (by have := depth_lt_toStr_length f hwf; omega) rfl
    rw [List.append_nil] at h
    simp only [Formula.parse, parsePrefixRun]
    rw [h]
  · have h := parse_polish_roundtrip f hwf (f.polish.data.length + 1) []
      (by have := depth_lt_polish_length f hwf; omega) rfl
    rw [List.append_nil] at h
    simp only [Formula.parse_polish]
    rw [h]

/-- C2 applied at a concrete formula over the full vocabulary. -/
theorem C2_round_trip_witness :
    Formula.parse (Formula.binary "<->" (.unary "~" (.var "p1")) (.const "F")).toStr =
      some (Formula.binary "<->" (.unary "~" (.var "p1")) (.const "F")) :=
  (C2_round_trip (Formula.binary "<->" (.unary "~" (.var "p1")) (.const "F"))
    (by decide)).1

/-! ### Operator-basis converter correctness -/

lemma coversB_of_subset {m : Model} {l l' : List String}
    (hsub : ∀ v ∈ l', v ∈ l ∨ v = "p") (hl : coversB m l = true)
    (hp : (assocLookup m "p").isSome = true) : coversB m l' = true := by
  simp only [coversB, List.all_eq_true] at hl ⊢
  intro v hv
  rcases hsub v hv with h | h
  · exact hl v h
  · subst h
    exact hp

lemma coversB_binary_split {op : String} {f g : Formula} {m : Model}
    (h : coversB m (Formula.binary op f g).variables = true) :
    coversB m f.variables = true ∧ coversB m g.variables = true := by
  rw [show (Formula.binary op f g).variables = f.variables ++ g.variables from rfl,
    coversB_append] at h
  exact (Bool.and_eq_true _ _).mp h

/-- `to_not_and_or` succeeds on every well-formed formula, lands in the
`{~, &, |}` basis, adds at most the variable `p`, and preserves the
truth value under any model defined on the original variables and `p`. -/
lemma to_not_and_or_spec : ∀ f : Formula, f.WF = true →
    ∃ g, to_not_and_or f = some g ∧ g.WF = true ∧
      (∀ o ∈ g.operators, o ∈ (["~", "&", "|"] : List String)) ∧
      (∀ v ∈ g.variables, v ∈ f.variables ∨ v = "p") ∧
      (∀ m : Model, coversB m f.variables = true →
        (assocLookup m "p").isSome = true →
        ∃ b, evaluate f m = some b ∧ evaluate g m = some b) := by
  intro f
  induction f with
  | var n =>
    intro hwf
    refine ⟨.var n, by simp [to_not_and_or], hwf, by simp [Formula.operators],
      fun v hv => Or.inl hv, ?_⟩
    intro m hcov hp
    have hsome : (assocLookup m n).isSome = true := by
      simpa [coversB, Formula.variables] using hcov
    obtain ⟨b, hb⟩ := Option.isSome_iff_exists.mp hsome
    exact ⟨b, by simp [evaluate, hb], by simp [evaluate, hb]⟩
  | const cc =>
    intro hwf
    rcases is_constant_cases hwf with h | h <;> subst h
    · refine ⟨.binary "|" (.var "p") (.unary "~" (.var "p")), by decide, by decide,
        ?_, ?_, ?_⟩
      · intro o ho
        rcases (by simpa [Formula.operators] using ho : o = "|" ∨ o = "~")
          with rfl | rfl <;> decide
      · intro v hv
        exact Or.inr (by simpa [Formula.variables] using hv)
      · intro m hcov hp
        obtain ⟨pb, hpb⟩ := Option.isSome_iff_exists.mp hp
        refine ⟨true, rfl, ?_⟩
        cases pb <;> simp [evaluate, hpb]
    · refine ⟨.binary "&" (.var "p") (.unary "~" (.var "p")), by decide, by decide,
        ?_, ?_, ?_⟩
      · intro o ho
        rcases (by simpa [Formula.operators] using ho : o = "&" ∨ o = "~")
          with rfl | rfl <;> decide
      · intro v hv
        exact Or.inr (by simpa [Formula.variables] using hv)
      · intro m hcov hp
        obtain ⟨pb, hpb⟩ := Option.isSome_iff_exists.mp hp
        refine ⟨false, rfl, ?_⟩
        cases pb <;> simp [evaluate, hpb]
  | unary op f ihf =>
    intro hwf
    rcases (Bool.and_eq_true _ _).mp hwf with ⟨h1, h2⟩
    obtain ⟨g', hEq, hWF, hOps, hVars, hEval⟩ := ihf h2
    refine ⟨.unary "~" g', by simp [to_not_and_or, hEq], by simp [Formula.WF,
      is_unary, hWF], ?_, hVars, ?_⟩
    · intro o ho
      rcases (by simpa [Formula.operators] using ho : o = "~" ∨ o ∈ g'.operators)
        with rfl | ho'
      · decide
      · exact hOps o ho'
    · intro m hcov hp
      obtain ⟨b, hbf, hbg⟩ := hEval m hcov hp
      exact ⟨!b, by simp [evaluate, hbf], by simp [evaluate, hbg]⟩
  | binary op f g ihf ihg =>
    intro hwf
    rcases (Bool.and_eq_true _ _).mp hwf with ⟨h12, h3⟩
    rcases (Bool.and_eq_true _ _).mp h12 with ⟨h1, h2⟩
    obtain ⟨gf, hgfEq, hgfWF, hgfOps, hgfVars, hgfEval⟩ := ihf h2
    obtain ⟨gg, hggEq, hggWF, hggOps, hggVars, hggEval⟩ := ihg h3
    have hvarsBoth : ∀ v, v ∈ gf.variables ++ gg.variables →
        v ∈ (Formula.binary op f g).variables ∨ v = "p" := by
      intro v hv
      rcases List.mem_append.mp hv with hv | hv
      · rcases hgfVars v hv with h | h
        · exact Or.inl (List.mem_append_left _ h)
        · exact Or.inr h
      · rcases hggVars v hv with h | h
        · exact Or.inl (List.mem_append_right _ h)
        · exact Or.inr h
    rcases is_binary_cases h1 with hop | hop | hop | hop | hop | hop | hop <;>
      subst hop
    · refine ⟨.binary "&" gf gg, by simp [to_not_and_or, hgfEq, hggEq],
        by simp [Formula.WF, is_binary, hgfWF, hggWF], ?_, ?_, ?_⟩
      · intro o ho
        rcases (by simpa [Formula.operators] using ho :
            o = "&" ∨ o ∈ gf.operators ∨ o ∈ gg.operators) with rfl | ho' | ho'
        · decide
        · exact hgfOps o ho'
        · exact hggOps o ho'
      · intro v hv
        exact hvarsBoth v (by simpa [Formula.variables] using hv)
      · intro m hcov hp
        obtain ⟨hcf, hcg⟩ := coversB_binary_split hcov
        obtain ⟨a, haf, hagf⟩ := hgfEval m hcf hp
        obtain ⟨b, hbg, hbgg⟩ := hggEval m hcg hp
        exact ⟨a && b, by cases a <;> cases b <;> simp [evaluate, haf, hbg],
          by cases a <;> cases b <;> simp [evaluate, hagf, hbgg]⟩
    · refine ⟨.binary "|" gf gg, by simp [to_not_and_or, hgfEq, hggEq],
        by simp [Formula.WF, is_binary, hgfWF, hggWF], ?_, ?_, ?_⟩
      · intro o ho
        rcases (by simpa [Formula.operators] using ho :
            o = "|" ∨ o ∈ gf.operators ∨ o ∈ gg.operators) with rfl | ho' | ho'
        · decide
        · exact hgfOps o ho'
        · exact hggOps o ho'
      · intro v hv
        exact hvarsBoth v (by simpa [Formula.variables] using hv)
      · intro m hcov hp
        obtain ⟨hcf, hcg⟩ := coversB_binary_split hcov
        obtain ⟨a, haf, hagf⟩ := hgfEval m hcf hp
        obtain ⟨b, hbg, hbgg⟩ := hggEval m hcg hp
        exact ⟨a || b, by cases a <;> cases b <;> simp [evaluate, haf, hbg],
          by cases a <;> cases b <;> simp [evaluate, hagf, hbgg]⟩
    · refine ⟨.binary "|" (.unary "~" gf) gg,
        by simp [to_not_and_or, hgfEq, hggEq],
        by simp [Formula.WF, is_binary, is_unary, hgfWF, hggWF], ?_, ?_, ?_⟩
      · intro o ho
        rcases (by simpa [Formula.operators] using ho :
            o = "|" ∨ o = "~" ∨ o ∈ gf.operators ∨ o ∈ gg.operators)
          with rfl | rfl | ho' | ho'
        · decide
        · decide
        · exact hgfOps o ho'
        · exact hggOps o ho'
      · intro v hv
        exact hvarsBoth v (by simpa [Formula.variables] using hv)
      · intro m hcov hp
        obtain ⟨hcf, hcg⟩ := coversB_binary_split hcov
        obtain ⟨a, haf, hagf⟩ := hgfEval m hcf hp
        obtain ⟨b, hbg, hbgg⟩ := hggEval m hcg hp
        exact ⟨!a || b, by cases a <;> cases b <;> simp [evaluate, haf, hbg],
          by cases a <;> cases b <;> simp [evaluate, hagf, hbgg]⟩
    · refine ⟨.binary "|" (.binary "&" gf (.unary "~" gg))
        (.binary "&" (.unary "~" gf) gg),
        by simp [to_not_and_or, hgfEq, hggEq],
        by simp [Formula.WF, is_binary, is_unary, hgfWF, hggWF], ?_, ?_, ?_⟩
      · intro o ho
        rcases (by simpa [Formula.operators] using ho :
            o = "|" ∨ o = "&" ∨ o ∈ gf.operators ∨ o = "~" ∨ o ∈ gg.operators ∨
              o = "&" ∨ o = "~" ∨ o ∈ gf.operators ∨ o ∈ gg.operators)
          with rfl | rfl | ho' | rfl | ho' | rfl | rfl | ho' | ho'
        · decide
        · decide
        · exact hgfOps o ho'
        · decide
        · exact hggOps o ho'
        · decide
        · decide
        · exact hgfOps o ho'
        · exact hggOps o ho'
      · intro v hv
        rcases (by simpa [Formula.variables] using hv :
            v ∈ gf.variables ∨ v ∈ gg.variables ∨ v ∈ gf.variables ∨
              v ∈ gg.variables) with h | h | h | h
        · exact hvarsBoth v (List.mem_append_left _ h)
        · exact hvarsBoth v (List.mem_append_right _ h)
        · exact hvarsBoth v (List.mem_append_left _ h)
        · exact hvarsBoth v (List.mem_append_right _ h)
      · intro m hcov hp
        obtain ⟨hcf, hcg⟩ := coversB_binary_split hcov
        obtain ⟨a, haf, hagf⟩ := hgfEval m hcf hp
        obtain ⟨b, hbg, hbgg⟩ := hggEval m hcg hp
        exact ⟨a != b, by cases a <;> cases b <;> simp [evaluate, haf, hbg],
          by cases a <;> cases b <;> simp [evaluate, hagf, hbgg]⟩
    · refine ⟨.binary "|" (.binary "&" gf gg)
        (.binary "&" (.unary "~" gf) (.unary "~" gg)),
        by simp [to_not_and_or, hgfEq, hggEq],
        by simp [Formula.WF, is_binary, is_unary, hgfWF, hggWF], ?_, ?_, ?_⟩
      · intro o ho
        rcases (by simpa [Formula.operators] using ho :
            o = "|" ∨ o = "&" ∨ o ∈ gf.operators ∨ o ∈ gg.operators ∨
              o = "&" ∨ o = "~" ∨ o ∈ gf.operators ∨ o = "~" ∨ o ∈ gg.operators)
          with rfl | rfl | ho' | ho' | rfl | rfl | ho' | rfl | ho'
        · decide
        · decide
        · exact hgfOps o ho'
        · exact hggOps o ho'
        · decide
        · decide
        · exact hgfOps o ho'
        · decide
        · exact hggOps o ho'
      · intro v hv
        rcases (by simpa [Formula.variables] using hv :
            v ∈ gf.variables ∨ v ∈ gg.variables ∨ v ∈ gf.variables ∨
              v ∈ gg.variables) with h | h | h | h
        · exact hvarsBoth v (List.mem_append_left _ h)
        · exact hvarsBoth v (List.mem_append_right _ h)
        · exact hvarsBoth v (List.mem_append_left _ h)
        · exact hvarsBoth v (List.mem_append_right _ h)
      · intro m hcov hp
        obtain ⟨hcf, hcg⟩ := coversB_binary_split hcov
        obtain ⟨a, haf, hagf⟩ := hgfEval m hcf hp
        obtain ⟨b, hbg, hbgg⟩ := hggEval m hcg hp
        exact ⟨a == b, by cases a <;> cases b <;> simp [evaluate, haf, hbg],
          by cases a <;> cases b <;> simp [evaluate, hagf, hbgg]⟩
    · refine ⟨.unary "~" (.binary "&" gf gg),
        by simp [to_not_and_or, hgfEq, hggEq],
        by simp [Formula.WF, is_binary, is_unary, hgfWF, hggWF], ?_, ?_, ?_⟩
      · intro o ho
        rcases (by simpa [Formula.operators] using ho :
            o = "~" ∨ o = "&" ∨ o ∈ gf.operators ∨ o ∈ gg.operators)
          with rfl | rfl | ho' | ho'
        · decide
        · decide
        · exact hgfOps o ho'
        · exact hggOps o ho'
      · intro v hv
        exact hvarsBoth v (by simpa [Formula.variables] using hv)
      · intro m hcov hp
        obtain ⟨hcf, hcg⟩ := coversB_binary_split hcov
        obtain ⟨a, haf, hagf⟩ := hgfEval m hcf hp
        obtain ⟨b, hbg, hbgg⟩ := hggEval m hcg hp
        exact ⟨!(a && b), by cases a <;> cases b <;> simp [evaluate, haf, hbg],
          by cases a <;> cases b <;> simp [evaluate, hagf, hbgg]⟩
    · refine ⟨.unary "~" (.binary "|" gf gg),
        by simp [to_not_and_or, hgfEq, hggEq],
        by simp [Formula.WF, is_binary, is_unary, hgfWF, hggWF], ?_, ?_, ?_⟩
      · intro o ho
        rcases (by simpa [Formula.operators] using ho :
            o = "~" ∨ o = "|" ∨ o ∈ gf.operators ∨ o ∈ gg.operators)
          with rfl | rfl | ho' | ho'
        · decide
        · decide
        · exact hgfOps o ho'
        · exact hggOps o ho'
      · intro v hv
        exact hvarsBoth v (by simpa [Formula.variables] using hv)
      · intro m hcov hp
        obtain ⟨hcf, hcg⟩ := coversB_binary_split hcov
        obtain ⟨a, haf, hagf⟩ := hgfEval m hcf hp
        obtain ⟨b, hbg, hbgg⟩ := hggEval m hcg hp
        exact ⟨!(a || b), by cases a <;> cases b <;> simp [evaluate, haf, hbg],
          by cases a <;> cases b <;> simp [evaluate, hagf, hbgg]⟩

/-- The inner `convert` of `to_not_and` on constant-free `{~, &, |}`
input: lands in `{~, &}`, keeps the variables, preserves truth. -/
lemma notAndConvert_spec : ∀ g : Formula, g.WF = true →
    (∀ o ∈ g.operators, o ∈ (["~", "&", "|"] : List String)) →
    ∀ fuel : Nat, g.size ≤ fuel →
    ∃ h, notAndConvert fuel g = some h ∧ h.WF = true ∧
      (∀ o ∈ h.operators, o ∈ (["~", "&"] : List String)) ∧
      (∀ v ∈ h.variables, v ∈ g.variables) ∧
      (∀ m : Model, coversB m g.variables = true →
        ∃ b, evaluate g m = some b ∧ evaluate h m = some b) := by
  intro g
  induction g with
  | var n =>
    intro hwf hops fuel hfuel
    cases fuel with
    | zero => simp [Formula.size] at hfuel
    | succ k =>
      refine ⟨.var n, by simp [notAndConvert], hwf, by simp [Formula.operators],
        fun v hv => hv, ?_⟩
      intro m hcov
      have hsome : (assocLookup m n).isSome = true := by
        simpa [coversB, Formula.variables] using hcov
      obtain ⟨b, hb⟩ := Option.isSome_iff_exists.mp hsome
      exact ⟨b, by simp [evaluate, hb], by simp [evaluate, hb]⟩
  | const cc =>
    intro hwf hops fuel hfuel
    exact absurd (hops cc (by simp [Formula.operators]))
      (by rcases is_constant_cases hwf with h | h <;> subst h <;> decide)
  | unary op g' ih =>
    intro hwf hops fuel hfuel
    cases fuel with
    | zero => simp [Formula.size] at hfuel
    | succ k =>
      rcases (Bool.and_eq_true _ _).mp hwf with ⟨h1, h2⟩
      have hops' : ∀ o ∈ g'.operators, o ∈ (["~", "&", "|"] : List String) :=
        fun o ho => hops o (by simp [Formula.operators, ho])
      have hk : g'.size ≤ k := by
        simp only [Formula.size] at hfuel
        omega
      obtain ⟨h', hEq, hWF, hOps, hVars, hEval⟩ := ih h2 hops' k hk
      refine ⟨.unary "~" h', by simp [notAndConvert, hEq],
        by simp [Formula.WF, is_unary, hWF], ?_, hVars, ?_⟩
      · intro o ho
        rcases (by simpa [Formula.operators] using ho :
            o = "~" ∨ o ∈ h'.operators) with rfl | ho'
        · decide
        · exact hOps o ho'
      · intro m hcov
        obtain ⟨b, hb1, hb2⟩ := hEval m hcov
        exact ⟨!b, by simp [evaluate, hb1], by simp [evaluate, hb2]⟩
  | binary op f' g' ihf ihg =>
    intro hwf hops fuel hfuel
    cases fuel with
    | zero => simp [Formula.size] at hfuel
    | succ k =>
      rcases (Bool.and_eq_true _ _).mp hwf with ⟨h12, h3⟩
      rcases (Bool.and_eq_true _ _).mp h12 with ⟨h1, h2⟩
      have hopsf : ∀ o ∈ f'.operators, o ∈ (["~", "&", "|"] : List String) :=
        fun o ho => hops o (by simp [Formula.operators, ho])
      have hopsg : ∀ o ∈ g'.operators, o ∈ (["~", "&", "|"] : List String) :=
        fun o ho => hops o (by simp [Formula.operators, ho])
      have hkf : f'.size ≤ k := by
        simp only [Formula.size] at hfuel
        omega
      have hkg : g'.size ≤ k := by
        simp only [Formula.size] at hfuel
        omega
      obtain ⟨hf', hfEq, hfWF, hfOps, hfVars, hfEval⟩ := ihf h2 hopsf k hkf
      obtain ⟨hg', hgEq, hgWF, hgOps, hgVars, hgEval⟩ := ihg h3 hopsg k hkg
      have hvars : ∀ v, v ∈ hf'.variables ∨ v ∈ hg'.variables →
          v ∈ (Formula.binary op f' g').variables := by
        intro v hv
        rcases hv with h | h
        · exact List.mem_append_left _ (hfVars v h)
        · exact List.mem_append_right _ (hgVars v h)
      have hopmem := hops op (by simp [Formula.operators])
      rcases (by simpa using hopmem : op = "~" ∨ op = "&" ∨ op = "|")
        with rfl | rfl | rfl
      · exact absurd h1 (by decide)
      · refine ⟨.binary "&" hf' hg', by simp [notAndConvert, hfEq, hgEq],
          by simp [Formula.WF, is_binary, hfWF, hgWF], ?_, ?_, ?_⟩
        · intro o ho
          rcases (by simpa [Formula.operators] using ho :
              o = "&" ∨ o ∈ hf'.operators ∨ o ∈ hg'.operators) with rfl | ho' | ho'
          · decide
          · exact hfOps o ho'
          · exact hgOps o ho'
        · intro v hv
          exact hvars v (by simpa [Formula.variables] using hv)
        · intro m hcov
          obtain ⟨hcf, hcg⟩ := coversB_binary_split hcov
          obtain ⟨a, ha1, ha2⟩ := hfEval m hcf
          obtain ⟨b, hb1, hb2⟩ := hgEval m hcg
          exact ⟨a && b, by cases a <;> cases b <;> simp [evaluate, ha1, hb1],
            by cases a <;> cases b <;> simp [evaluate, ha2, hb2]⟩
      · refine ⟨.unary "~" (.binary "&" (.unary "~" hf') (.unary "~" hg')),
          by simp [notAndConvert, hfEq, hgEq],
          by simp [Formula.WF, is_binary, is_unary, hfWF, hgWF], ?_, ?_, ?_⟩
        · intro o ho
          rcases (by simpa [Formula.operators] using ho :
              o = "~" ∨ o = "&" ∨ o = "~" ∨ o ∈ hf'.operators ∨ o = "~" ∨
                o ∈ hg'.operators) with rfl | rfl | rfl | ho' | rfl | ho'
          · decide
          · decide
          · decide
          · exact hfOps o ho'
          · decide
          · exact hgOps o ho'
        · intro v hv
          exact hvars v (by simpa [Formula.variables] using hv)
        · intro m hcov
          obtain ⟨hcf, hcg⟩ := coversB_binary_split hcov
          obtain ⟨a, ha1, ha2⟩ := hfEval m hcf
          obtain ⟨b, hb1, hb2⟩ := hgEval m hcg
          exact ⟨a || b, by cases a <;> cases b <;> simp [evaluate, ha1, hb1],
            by cases a <;> cases b <;> simp [evaluate, ha2, hb2]⟩

/-- The inner `convert` of `to_nand` on constant-free `{~, &}` input:
lands in `{-&}`, keeps the variables, preserves truth. -/
lemma nandConvert_spec : ∀ g : Formula, g.WF = true →
    (∀ o ∈ g.operators, o ∈ (["~", "&"] : List String)) →
    ∀ fuel : Nat, g.size ≤ fuel →
    ∃ h, nandConvert fuel g = some h ∧ h.WF = true ∧
      (∀ o ∈ h.operators, o ∈ (["-&"] : List String)) ∧
      (∀ v ∈ h.variables, v ∈ g.variables) ∧
      (∀ m : Model, coversB m g.variables = true →
        ∃ b, evaluate g m = some b ∧ evaluate h m = some b) := by
  intro g
  induction g with
  | var n =>
    intro hwf hops fuel hfuel
    cases fuel with
    | zero => simp [Formula.size] at hfuel
    | succ k =>
      refine ⟨.var n, by simp [nandConvert], hwf, by simp [Formula.operators],
        fun v hv => hv, ?_⟩
      intro m hcov
      have hsome : (assocLookup m n).isSome = true := by
        simpa [coversB, Formula.variables] using hcov
      obtain ⟨b, hb⟩ := Option.isSome_iff_exists.mp hsome
      exact ⟨b, by simp [evaluate, hb], by simp [evaluate, hb]⟩
  | const cc =>
    intro hwf hops fuel hfuel
    exact absurd (hops cc (by simp [Formula.operators]))
      (by rcases is_constant_cases hwf with h | h <;> subst h <;> decide)
  | unary op g' ih =>
    intro hwf hops fuel hfuel
    cases fuel with
    | zero => simp [Formula.size] at hfuel
    | succ k =>
      rcases (Bool.and_eq_true _ _).mp hwf with ⟨h1, h2⟩
      have hops' : ∀ o ∈ g'.operators, o ∈ (["~", "&"] : List String) :=
        fun o ho => hops o (by simp [Formula.operators, ho])
      have hk : g'.size ≤ k := by
        simp only [Formula.size] at hfuel
        omega
      obtain ⟨h', hEq, hWF, hOps, hVars, hEval⟩ := ih h2 hops' k hk
      refine ⟨.binary "-&" h' h', by simp [nandConvert, hEq],
        by simp [Formula.WF, is_binary, hWF], ?_, ?_, ?_⟩
      · intro o ho
        rcases (by simpa [Formula.operators] using ho :
            o = "-&" ∨ o ∈ h'.operators ∨ o ∈ h'.operators) with rfl | ho' | ho'
        · decide
        · exact hOps o ho'
        · exact hOps o ho'
      · intro v hv
        rcases (by simpa [Formula.variables] using hv :
            v ∈ h'.variables ∨ v ∈ h'.variables) with h | h <;> exact hVars v h
      · intro m hcov
        obtain ⟨b, hb1, hb2⟩ := hEval m hcov
        exact ⟨!b, by simp [evaluate, hb1], by cases b <;> simp [evaluate, hb2]⟩
  | binary op f' g' ihf ihg =>
    intro hwf hops fuel hfuel
    cases fuel with
    | zero => simp [Formula.size] at hfuel
    | succ k =>
      rcases (Bool.and_eq_true _ _).mp hwf with ⟨h12, h3⟩
      rcases (Bool.and_eq_true _ _).mp h12 with ⟨h1, h2⟩
      have hopsf : ∀ o ∈ f'.operators, o ∈ (["~", "&"] : List String) :=
        fun o ho => hops o (by simp [Formula.operators, ho])
      have hopsg : ∀ o ∈ g'.operators, o ∈ (["~", "&"] : List String) :=
        fun o ho => hops o (by simp [Formula.operators, ho])
      have hkf : f'.size ≤ k := by
        simp only [Formula.size] at hfuel
        omega
      have hkg : g'.size ≤ k := by
        simp only [Formula.size] at hfuel
        omega
      obtain ⟨hf', hfEq, hfWF, hfOps, hfVars, hfEval⟩ := ihf h2 hopsf k hkf
      obtain ⟨hg', hgEq, hgWF, hgOps, hgVars, hgEval⟩ := ihg h3 hopsg k hkg
      have hvars : ∀ v, v ∈ hf'.variables ∨ v ∈ hg'.variables →
          v ∈ (Formula.binary op f' g').variables := by
        intro v hv
        rcases hv with h | h
        · exact List.mem_append_left _ (hfVars v h)
        · exact List.mem_append_right _ (hgVars v h)
      have hopmem := hops op (by simp [Formula.operators])
      rcases (by simpa using hopmem : op = "~" ∨ op = "&") with rfl | rfl
      · exact absurd h1 (by decide)
      · refine ⟨.binary "-&" (.binary "-&" hf' hg') (.binary "-&" hf' hg'),
          by simp [nandConvert, hfEq, hgEq],
          by simp [Formula.WF, is_binary, hfWF, hgWF], ?_, ?_, ?_⟩
        · intro o ho
          rcases (by simpa [Formula.operators] using ho :
              o = "-&" ∨ o = "-&" ∨ o ∈ hf'.operators ∨ o ∈ hg'.operators ∨
                o = "-&" ∨ o ∈ hf'.operators ∨ o ∈ hg'.operators)
            with rfl | rfl | ho' | ho' | rfl | ho' | ho'
          · decide
          · decide
          · exact hfOps o ho'
          · exact hgOps o ho'
          · decide
          · exact hfOps o ho'
          · exact hgOps o ho'
        · intro v hv
          rcases (by simpa [Formula.variables] using hv :
              v ∈ hf'.variables ∨ v ∈ hg'.variables ∨ v ∈ hf'.variables ∨
                v ∈ hg'.variables) with h | h | h | h
          · exact hvars v (Or.inl h)
          · exact hvars v (Or.inr h)
          · exact hvars v (Or.inl h)
          · exact hvars v (Or.inr h)
        · intro m hcov
          obtain ⟨hcf, hcg⟩ := coversB_binary_split hcov
          obtain ⟨a, ha1, ha2⟩ := hfEval m hcf
          obtain ⟨b, hb1, hb2⟩ := hgEval m hcg
          exact ⟨a && b, by cases a <;> cases b <;> simp [evaluate, ha1, hb1],
            by cases a <;> cases b <;> simp [evaluate, ha2, hb2]⟩

/-- The inner `convert` of `to_implies_not` on constant-free
`{~, &, |}` input: lands in `{->, ~}`, keeps the variables, preserves
truth. -/
lemma impliesNotConvert_spec : ∀ g : Formula, g.WF = true →
    (∀ o ∈ g.operators, o ∈ (["~", "&", "|"] : List String)) →
    ∀ fuel : Nat, g.size ≤ fuel →
    ∃ h, impliesNotConvert fuel g = some h ∧ h.WF = true ∧
      (∀ o ∈ h.operators, o ∈ (["->", "~"] : List String)) ∧
      (∀ v ∈ h.variables, v ∈ g.variables) ∧
      (∀ m : Model, coversB m g.variables = true →
        ∃ b, evaluate g m = some b ∧ evaluate h m = some b) := by
  intro g
  induction g with
  | var n =>
    intro hwf hops fuel hfuel
    cases fuel with
    | zero => simp [Formula.size] at hfuel
    | succ k =>
      refine ⟨.var n, by simp [impliesNotConvert], hwf,
        by simp [Formula.operators], fun v hv => hv, ?_⟩
      intro m hcov
      have hsome : (assocLookup m n).isSome = true := by
        simpa [coversB, Formula.variables] using hcov
      obtain ⟨b, hb⟩ := Option.isSome_iff_exists.mp hsome
      exact ⟨b, by simp [evaluate, hb], by simp [evaluate, hb]⟩
  | const cc =>
    intro hwf hops fuel hfuel
    exact absurd (hops cc (by simp [Formula.operators]))
      (by rcases is_constant_cases hwf with h | h <;> subst h <;> decide)
  | unary op g' ih =>
    intro hwf hops fuel hfuel
    cases fuel with
    | zero => simp [Formula.size] at hfuel
    | succ k =>
      rcases (Bool.and_eq_true _ _).mp hwf with ⟨h1, h2⟩
      have hops' : ∀ o ∈ g'.operators, o ∈ (["~", "&", "|"] : List String) :=
        fun o ho => hops o (by simp [Formula.operators, ho])
      have hk : g'.size ≤ k := by
        simp only [Formula.size] at hfuel
        omega
      obtain ⟨h', hEq, hWF, hOps, hVars, hEval⟩ := ih h2 hops' k hk
      refine ⟨.unary "~" h', by simp [impliesNotConvert, hEq],
        by simp [Formula.WF, is_unary, hWF], ?_, hVars, ?_⟩
      · intro o ho
        rcases (by simpa [Formula.operators] using ho :
            o = "~" ∨ o ∈ h'.operators) with rfl | ho'
        · decide
        · exact hOps o ho'
      · intro m hcov
        obtain ⟨b, hb1, hb2⟩ := hEval m hcov
        exact ⟨!b, by simp [evaluate, hb1], by simp [evaluate, hb2]⟩
  | binary op f' g' ihf ihg =>
    intro hwf hops fuel hfuel
    cases fuel with
    | zero => simp [Formula.size] at hfuel
    | succ k =>
      rcases (Bool.and_eq_true _ _).mp hwf with ⟨h12, h3⟩
      rcases (Bool.and_eq_true _ _).mp h12 with ⟨h1, h2⟩
      have hopsf : ∀ o ∈ f'.operators, o ∈ (["~", "&", "|"] : List String) :=
        fun o ho => hops o (by simp [Formula.operators, ho])
      have hopsg : ∀ o ∈ g'.operators, o ∈ (["~", "&", "|"] : List String) :=
        fun o ho => hops o (by simp [Formula.operators, ho])
      have hkf : f'.size ≤ k := by
        simp only [Formula.size] at hfuel
        omega
      have hkg : g'.size ≤ k := by
        simp only [Formula.size] at hfuel
        omega
      obtain ⟨hf', hfEq, hfWF, hfOps, hfVars, hfEval⟩ := ihf h2 hopsf k hkf
      obtain ⟨hg', hgEq, hgWF, hgOps, hgVars, hgEval⟩ := ihg h3 hopsg k hkg
      have hvars : ∀ v, v ∈ hf'.variables ∨ v ∈ hg'.variables →
          v ∈ (Formula.binary op f' g').variables := by
        intro v hv
        rcases hv with h | h
        · exact List.mem_append_left _ (hfVars v h)
        · exact List.mem_append_right _ (hgVars v h)
      have hopmem := hops op (by simp [Formula.operators])
      rcases (by simpa using hopmem : op = "~" ∨ op = "&" ∨ op = "|")
        with rfl | rfl | rfl
      · exact absurd h1 (by decide)
      · refine ⟨.unary "~" (.binary "->" hf' (.unary "~" hg')),
          by simp [impliesNotConvert, hfEq, hgEq],
          by simp [Formula.WF, is_binary, is_unary, hfWF, hgWF], ?_, ?_, ?_⟩
        · intro o ho
          rcases (by simpa [Formula.operators] using ho :
              o = "~" ∨ o = "->" ∨ o ∈ hf'.operators ∨ o = "~" ∨
                o ∈ hg'.operators) with rfl | rfl | ho' | rfl | ho'
          · decide
          · decide
          · exact hfOps o ho'
          · decide
          · exact hgOps o ho'
        · intro v hv
          rcases (by simpa [Formula.variables] using hv :
              v ∈ hf'.variables ∨ v ∈ hg'.variables) with h | h
          · exact hvars v (Or.inl h)
          · exact hvars v (Or.inr h)
        · intro m hcov
          obtain ⟨hcf, hcg⟩ := coversB_binary_split hcov
          obtain ⟨a, ha1, ha2⟩ := hfEval m hcf
          obtain ⟨b, hb1, hb2⟩ := hgEval m hcg
          exact ⟨a && b, by cases a <;> cases b <;> simp [evaluate, ha1, hb1],
            by cases a <;> cases b <;> simp [evaluate, ha2, hb2]⟩
      · refine ⟨.binary "->" (.unary "~" hf') hg',
          by simp [impliesNotConvert, hfEq, hgEq],
          by simp [Formula.WF, is_binary, is_unary, hfWF, hgWF], ?_, ?_, ?_⟩
        · intro o ho
          rcases (by simpa [Formula.operators] using ho :
              o = "->" ∨ o = "~" ∨ o ∈ hf'.operators ∨ o ∈ hg'.operators)
            with rfl | rfl | ho' | ho'
          · decide
          · decide
          · exact hfOps o ho'
          · exact hgOps o ho'
        · intro v hv
          rcases (by simpa [Formula.variables] using hv :
              v ∈ hf'.variables ∨ v ∈ hg'.variables) with h | h
          · exact hvars v (Or.inl h)
          · exact hvars v (Or.inr h)
        · intro m hcov
          obtain ⟨hcf, hcg⟩ := coversB_binary_split hcov
          obtain ⟨a, ha1, ha2⟩ := hfEval m hcf
          obtain ⟨b, hb1, hb2⟩ := hgEval m hcg
          exact ⟨a || b, by cases a <;> cases b <;> simp [evaluate, ha1, hb1],
            by cases a <;> cases b <;> simp [evaluate, ha2, hb2]⟩

/-- The inner `convert` of `to_implies_false` on constant-free
`{~, ->}` input: lands in `{->, F}`, keeps the variables, preserves
truth. -/
lemma impliesFalseConvert_spec : ∀ g : Formula, g.WF = true →
    (∀ o ∈ g.operators, o ∈ (["~", "->"] : List String)) →
    ∀ fuel : Nat, g.size ≤ fuel →
    ∃ h, impliesFalseConvert fuel g = some h ∧ h.WF = true ∧
      (∀ o ∈ h.operators, o ∈ (["->", "F"] : List String)) ∧
      (∀ v ∈ h.variables, v ∈ g.variables) ∧
      (∀ m : Model, coversB m g.variables = true →
        ∃ b, evaluate g m = some b ∧ evaluate h m = some b) := by
  intro g
  induction g with
  | var n =>
    intro hwf hops fuel hfuel
    cases fuel with
    | zero => simp [Formula.size] at hfuel
    | succ k =>
      refine ⟨.var n, by simp [impliesFalseConvert], hwf,
        by simp [Formula.operators], fun v hv => hv, ?_⟩
      intro m hcov
      have hsome : (assocLookup m n).isSome = true := by
        simpa [coversB, Formula.variables] using hcov
      obtain ⟨b, hb⟩ := Option.isSome_iff_exists.mp hsome
      exact ⟨b, by simp [evaluate, hb], by simp [evaluate, hb]⟩
  | const cc =>
    intro hwf hops fuel hfuel
    exact absurd (hops cc (by simp [Formula.operators]))
      (by rcases is_constant_cases hwf with h | h <;> subst h <;> decide)
  | unary op g' ih =>
    intro hwf hops fuel hfuel
    cases fuel with
    | zero => simp [Formula.size] at hfuel
    | succ k =>
      rcases (Bool.and_eq_true _ _).mp hwf with ⟨h1, h2⟩
      have hops' : ∀ o ∈ g'.operators, o ∈ (["~", "->"] : List String) :=
        fun o ho => hops o (by simp [Formula.operators, ho])
      have hk : g'.size ≤ k := by
        simp only [Formula.size] at hfuel
        omega
      obtain ⟨h', hEq, hWF, hOps, hVars, hEval⟩ := ih h2 hops' k hk
      refine ⟨.binary "->" h' (.const "F"), by simp [impliesFalseConvert, hEq],
        by simp [Formula.WF, is_binary, is_constant, hWF], ?_, ?_, ?_⟩
      · intro o ho
        rcases (by simpa [Formula.operators] using ho :
            o = "->" ∨ o ∈ h'.operators ∨ o = "F") with rfl | ho' | rfl
        · decide
        · exact hOps o ho'
        · decide
      · intro v hv
        exact hVars v (by simpa [Formula.variables] using hv)
      · intro m hcov
        obtain ⟨b, hb1, hb2⟩ := hEval m hcov
        exact ⟨!b, by simp [evaluate, hb1], by cases b <;> simp [evaluate, hb2]⟩
  | binary op f' g' ihf ihg =>
    intro hwf hops fuel hfuel
    cases fuel with
    | zero => simp [Formula.size] at hfuel
    | succ k =>
      rcases (Bool.and_eq_true _ _).mp hwf with ⟨h12, h3⟩
      rcases (Bool.and_eq_true _ _).mp h12 with ⟨h1, h2⟩
      have hopsf : ∀ o ∈ f'.operators, o ∈ (["~", "->"] : List String) :=
        fun o ho => hops o (by simp [Formula.operators, ho])
      have hopsg : ∀ o ∈ g'.operators, o ∈ (["~", "->"] : List String) :=
        fun o ho => hops o (by simp [Formula.operators, ho])
      have hkf : f'.size ≤ k := by
        simp only [Formula.size] at hfuel
        omega
      have hkg : g'.size ≤ k := by
        simp only [Formula.size] at hfuel
        omega
      obtain ⟨hf', hfEq, hfWF, hfOps, hfVars, hfEval⟩ := ihf h2 hopsf k hkf
      obtain ⟨hg', hgEq, hgWF, hgOps, hgVars, hgEval⟩ := ihg h3 hopsg k hkg
      have hopmem := hops op (by simp [Formula.operators])
      rcases (by simpa using hopmem : op = "~" ∨ op = "->") with rfl | rfl
      · exact absurd h1 (by decide)
      · refine ⟨.binary "->" hf' hg', by simp [impliesFalseConvert, hfEq, hgEq],
          by simp [Formula.WF, is_binary, hfWF, hgWF], ?_, ?_, ?_⟩
        · intro o ho
          rcases (by simpa [Formula.operators] using ho :
              o = "->" ∨ o ∈ hf'.operators ∨ o ∈ hg'.operators) with rfl | ho' | ho'
          · decide
          · exact hfOps o ho'
          · exact hgOps o ho'
        · intro v hv
          rcases (by simpa [Formula.variables] using hv :
              v ∈ hf'.variables ∨ v ∈ hg'.variables) with h | h
          · exact List.mem_append_left _ (hfVars v h)
          · exact List.mem_append_right _ (hgVars v h)
        · intro m hcov
          obtain ⟨hcf, hcg⟩ := coversB_binary_split hcov
          obtain ⟨a, ha1, ha2⟩ := hfEval m hcf
          obtain ⟨b, hb1, hb2⟩ := hgEval m hcg
          exact ⟨!a || b, by cases a <;> cases b <;> simp [evaluate, ha1, hb1],
            by cases a <;> cases b <;> simp [evaluate, ha2, hb2]⟩

/-- `to_not_and` lands in `{~, &}` and preserves truth. -/
lemma to_not_and_spec : ∀ f : Formula, f.WF = true →
    ∃ h, to_not_and f = some h ∧ h.WF = true ∧
      (∀ o ∈ h.operators, o ∈ (["~", "&"] : List String)) ∧
      (∀ v ∈ h.variables, v ∈ f.variables ∨ v = "p") ∧
      (∀ m : Model, coversB m f.variables = true →
        (assocLookup m "p").isSome = true →
        ∃ b, evaluate f m = some b ∧ evaluate h m = some b) := by
  intro f hwf
  obtain ⟨g, hgEq, hgWF, hgOps, hgVars, hgEval⟩ := to_not_and_or_spec f hwf
  obtain ⟨h, hhEq, hhWF, hhOps, hhVars, hhEval⟩ :=
    notAndConvert_spec g hgWF hgOps g.size (le_refl _)
  refine ⟨h, by simp [to_not_and, hgEq, hhEq], hhWF, hhOps,
    fun v hv => hgVars v (hhVars v hv), ?_⟩
  intro m hcov hp
  have hcovg : coversB m g.variables = true := coversB_of_subset hgVars hcov hp
  obtain ⟨b, hb1, hb2⟩ := hgEval m hcov hp
  obtain ⟨b', hb1', hb2'⟩ := hhEval m hcovg
  have hbb : b' = b := by
    rw [hb2] at hb1'
    exact (Option.some.inj hb1').symm
  subst hbb
  exact ⟨b', hb1, hb2'⟩

/-- `to_nand` lands in `{-&}` and preserves truth. -/
lemma to_nand_spec : ∀ f : Formula, f.WF = true →
    ∃ h, to_nand f = some h ∧ h.WF = true ∧
      (∀ o ∈ h.operators, o ∈ (["-&"] : List String)) ∧
      (∀ v ∈ h.variables, v ∈ f.variables ∨ v = "p") ∧
      (∀ m : Model, coversB m f.variables = true →
        (assocLookup m "p").isSome = true →
        ∃ b, evaluate f m = some b ∧ evaluate h m = some b) := by
  intro f hwf
  obtain ⟨g, hgEq, hgWF, hgOps, hgVars, hgEval⟩ := to_not_and_spec f hwf
  obtain ⟨h, hhEq, hhWF, hhOps, hhVars, hhEval⟩ :=
    nandConvert_spec g hgWF hgOps g.size (le_refl _)
  refine ⟨h, by simp [to_nand, hgEq, hhEq], hhWF, hhOps,
    fun v hv => hgVars v (hhVars v hv), ?_⟩
  intro m hcov hp
  have hcovg : coversB m g.variables = true := coversB_of_subset hgVars hcov hp
  obtain ⟨b, hb1, hb2⟩ := hgEval m hcov hp
  obtain ⟨b', hb1', hb2'⟩ := hhEval m hcovg
  have hbb : b' = b := by
    rw [hb2] at hb1'
    exact (Option.some.inj hb1').symm
  subst hbb
  exact ⟨b', hb1, hb2'⟩

/-- `to_implies_not` lands in `{->, ~}` and preserves truth. -/
lemma to_implies_not_spec : ∀ f : Formula, f.WF = true →
    ∃ h, to_implies_not f = some h ∧ h.WF = true ∧
      (∀ o ∈ h.operators, o ∈ (["->", "~"] : List String)) ∧
      (∀ v ∈ h.variables, v ∈ f.variables ∨ v = "p") ∧
      (∀ m : Model, coversB m f.variables = true →
        (assocLookup m "p").isSome = true →
        ∃ b, evaluate f m = some b ∧ evaluate h m = some b) := by
  intro f hwf
  obtain ⟨g, hgEq, hgWF, hgOps, hgVars, hgEval⟩ := to_not_and_or_spec f hwf
  obtain ⟨h, hhEq, hhWF, hhOps, hhVars, hhEval⟩ :=
    impliesNotConvert_spec g hgWF hgOps g.size (le_refl _)
  refine ⟨h, by simp [to_implies_not, hgEq, hhEq], hhWF, hhOps,
    fun v hv => hgVars v (hhVars v hv), ?_⟩
  intro m hcov hp
  have hcovg : coversB m g.variables = true := coversB_of_subset hgVars hcov hp
  obtain ⟨b, hb1, hb2⟩ := hgEval m hcov hp
  obtain ⟨b', hb1', hb2'⟩ := hhEval m hcovg
  have hbb : b' = b := by
    rw [hb2] at hb1'
    exact (Option.some.inj hb1').symm
  subst hbb
  exact ⟨b', hb1, hb2'⟩

/-- `to_implies_false` lands in `{->, F}` and preserves truth. -/
lemma to_implies_false_spec : ∀ f : Formula, f.WF = true →
    ∃ h, to_implies_false f = some h ∧ h.WF = true ∧
      (∀ o ∈ h.operators, o ∈ (["->", "F"] : List String)) ∧
      (∀ v ∈ h.variables, v ∈ f.variables ∨ v = "p") ∧
      (∀ m : Model, coversB m f.variables = true →
        (assocLookup m "p").isSome = true →
        ∃ b, evaluate f m = some b ∧ evaluate h m = some b) := by
  intro f hwf
  obtain ⟨g, hgEq, hgWF, hgOps, hgVars, hgEval⟩ := to_implies_not_spec f hwf
  have hgOps' : ∀ o ∈ g.operators, o ∈ (["~", "->"] : List String) := by
    intro o ho
    rcases (by simpa using hgOps o ho : o = "->" ∨ o = "~") with rfl | rfl <;>
      decide
  obtain ⟨h, hhEq, hhWF, hhOps, hhVars, hhEval⟩ :=
    impliesFalseConvert_spec g hgWF hgOps' g.size (le_refl _)
  refine ⟨h, by simp [to_implies_false, hgEq, hhEq], hhWF, hhOps,
    fun v hv => hgVars v (hhVars v hv), ?_⟩
  intro m hcov hp
  have hcovg : coversB m g.variables = true := coversB_of_subset hgVars hcov hp
  obtain ⟨b, hb1, hb2⟩ := hgEval m hcov hp
  obtain ⟨b', hb1', hb2'⟩ := hhEval m hcovg
  have hbb : b' = b := by
    rw [hb2] at hb1'
    exact (Option.some.inj hb1').symm
  subst hbb
  exact ⟨b', hb1, hb2'⟩

/-- C1 (counterexample to the claim as stated): for `f = Formula('T')`
the only model over `f`'s (empty) variable set is the empty model, and
there `evaluate(to_not_and_or(f), {})` fails with a missing lookup of
the introduced variable `p` (an error, embedded as `none`) instead of
equalling `evaluate(f, {}) = True` — the converters do not preserve
evaluation under models over exactly the original variables when the
input contains a constant. -/
theorem C1_operator_basis_counterexample :
    (Formula.const "T").WF = true ∧ (Formula.const "T").variables = [] ∧
      (to_not_and_or (Formula.const "T")).bind (fun g => evaluate g []) ≠
        evaluate (Formula.const "T") [] := by
  refine ⟨by decide, by decide, ?_⟩
  decide

/-- C1 (amended): for every converter in the chain and every
well-formed formula `f`, the conversion succeeds, its result uses only
the target basis (`{~,&,|}`, `{~,&}`, `{-&}`, `{->,~}`, `{->,F}`
respectively), and it has the same truth value as `f` under every model
that is defined on `f`'s variables and additionally on the variable `p`
used to rewrite the constants `T`/`F`. -/
theorem C1_operator_basis_preservation_amended :
    (∀ f : Formula, f.WF = true → ∃ g, to_not_and_or f = some g ∧
      (∀ o ∈ g.operators, o ∈ (["~", "&", "|"] : List String)) ∧
      (∀ m : Model, coversB m f.variables = true →
        (assocLookup m "p").isSome = true →
        ∃ b, evaluate f m = some b ∧ evaluate g m = some b)) ∧
    (∀ f : Formula, f.WF = true → ∃ g, to_not_and f = some g ∧
      (∀ o ∈ g.operators, o ∈ (["~", "&"] : List String)) ∧
      (∀ m : Model, coversB m f.variables = true →
        (assocLookup m "p").isSome = true →
        ∃ b, evaluate f m = some b ∧ evaluate g m = some b)) ∧
    (∀ f : Formula, f.WF = true → ∃ g, to_nand f = some g ∧
      (∀ o ∈ g.operators, o ∈ (["-&"] : List String)) ∧
      (∀ m : Model, coversB m f.variables = true →
        (assocLookup m "p").isSome = true →
        ∃ b, evaluate f m = some b ∧ evaluate g m = some b)) ∧
    (∀ f : Formula, f.WF = true → ∃ g, to_implies_not f = some g ∧
      (∀ o ∈ g.operators, o ∈ (["->", "~"] : List String)) ∧
      (∀ m : Model, coversB m f.variables = true →
        (assocLookup m "p").isSome = true →
        ∃ b, evaluate f m = some b ∧ evaluate g m = some b)) ∧
    (∀ f : Formula, f.WF = true → ∃ g, to_implies_false f = some g ∧
      (∀ o ∈ g.operators, o ∈ (["->", "F"] : List String)) ∧
      (∀ m : Model, coversB m f.variables = true →
        (assocLookup m "p").isSome = true →
        ∃ b, evaluate f m = some b ∧ evaluate g m = some b)) := by
  refine ⟨?_, ?_, ?_, ?_, ?_⟩
  · intro f hwf
    obtain ⟨g, hEq, _, hOps, _, hEval⟩ := to_not_and_or_spec f hwf
    exact ⟨g, hEq, hOps, hEval⟩
  · intro f hwf
    obtain ⟨g, hEq, _, hOps, _, hEval⟩ := to_not_and_spec f hwf
    exact ⟨g, hEq, hOps, hEval⟩
  · intro f hwf
    obtain ⟨g, hEq, _, hOps, _, hEval⟩ := to_nand_spec f hwf
    exact ⟨g, hEq, hOps, hEval⟩
  · intro f hwf
    obtain ⟨g, hEq, _, hOps, _, hEval⟩ := to_implies_not_spec f hwf
    exact ⟨g, hEq, hOps, hEval⟩
  · intro f hwf
    obtain ⟨g, hEq, _, hOps, _, hEval⟩ := to_implies_false_spec f hwf
    exact ⟨g, hEq, hOps, hEval⟩

/-- C1 (amended) applied to `(p+T)` and a concrete model. -/
theorem C1_operator_basis_preservation_amended_witness :
    ∃ g, to_nand (Formula.binary "+" (.var "q") (.const "T")) = some g ∧
      (∀ o ∈ g.operators, o ∈ (["-&"] : List String)) ∧
      (∀ m : Model, coversB m (Formula.binary "+" (.var "q")
          (.const "T")).variables = true →
        (assocLookup m "p").isSome = true →
        ∃ b, evaluate (Formula.binary "+" (.var "q") (.const "T")) m = some b ∧
          evaluate g m = some b) :=
  C1_operator_basis_preservation_amended.2.2.1
    (Formula.binary "+" (.var "q") (.const "T")) (by decide)

/-! ### Synthesis correctness infrastructure -/

lemma bool_eq_of_iff {x y : Bool} (h : x = true ↔ y = true) : x = y := by
  cases x <;> cases y <;> simp_all

lemma all_map_comp {α β : Type} (g : α → β) (pr : β → Bool) :
    ∀ (xs : List α), (xs.map g).all pr = xs.all (fun y => pr (g y))
  | [] => rfl
  | x :: xs => by simp [List.all_cons, all_map_comp g pr xs]

lemma any_map_comp {α β : Type} (g : α → β) (pr : β → Bool) :
    ∀ (xs : List α), (xs.map g).any pr = xs.any (fun y => pr (g y))
  | [] => rfl
  | x :: xs => by simp [List.any_cons, any_map_comp g pr xs]

lemma length_sortStrs (l : List String) : (sortStrs l).length = l.length := by
  have hstep : ∀ (x : String) (r : List String),
      (insertStr x r).length = r.length + 1 := by
    intro x r
    induction r with
    | nil => rfl
    | cons y ys ih =>
      by_cases h : strLe x y = true
      · simp [insertStr, h]
      · simp [insertStr, h, ih]
  induction l with
  | nil => rfl
  | cons x xs ih =>
    show (insertStr x (sortStrs xs)).length = xs.length + 1
    rw [hstep, ih]

lemma mem_insertStr {x a : String} {r : List String} :
    a ∈ insertStr x r ↔ a = x ∨ a ∈ r := by
  induction r with
  | nil => simp [insertStr]
  | cons y ys ih =>
    by_cases h : strLe x y = true
    · simp only [insertStr, if_pos h]
      simp [List.mem_cons]
    · simp only [insertStr, if_neg h]
      simp [List.mem_cons, ih]
      tauto

lemma mem_sortStrs {a : String} {l : List String} :
    a ∈ sortStrs l ↔ a ∈ l := by
  induction l with
  | nil => simp [sortStrs]
  | cons x xs ih =>
    show a ∈ insertStr x (sortStrs xs) ↔ _
    rw [mem_insertStr, ih]
    simp

lemma all_congr_mem {α : Type} :
    ∀ (l : List α) (p q : α → Bool), (∀ a ∈ l, p a = q a) → l.all p = l.all q
  | [], _, _, _ => rfl
  | x :: xs, p, q, h => by
    simp only [List.all_cons, h x (List.mem_cons_self x xs)]
    rw [all_congr_mem xs p q (fun a ha => h a (List.mem_cons_of_mem x ha))]

lemma all_of_mem_iff {l l' : List String} {p : String → Bool}
    (h : ∀ x, x ∈ l ↔ x ∈ l') : l.all p = l'.all p := by
  apply bool_eq_of_iff
  simp only [List.all_eq_true]
  constructor
  · intro ha x hx
    exact ha x ((h x).mpr hx)
  · intro ha x hx
    exact ha x ((h x).mp hx)

lemma any_bang_eq_not_all {α : Type} (l : List α) (p : α → Bool) :
    l.any (fun a => !(p a)) = !(l.all p) := by
  induction l with
  | nil => rfl
  | cons x xs ih => simp [List.any_cons, List.all_cons, ih, Bool.not_and]

/-- Evaluating a left fold of conjunctions: the conjunction of the seed
value and all the remaining truth values. -/
lemma eval_foldl_and (m : Model) : ∀ (ls : List Formula) (l : Formula) (a : Bool),
    evaluate l m = some a → (∀ x ∈ ls, ∃ bx, evaluate x m = some bx) →
    evaluate (ls.foldl (fun acc lit => Formula.binary "&" acc lit) l) m =
      some (a && ls.all (fun x => evaluate x m == some true)) := by
  intro ls
  induction ls with
  | nil =>
    intro l a ha _
    simpa using ha
  | cons x xs ih =>
    intro l a ha hall
    obtain ⟨bx, hbx⟩ := hall x (List.mem_cons_self x xs)
    have hstep : evaluate (Formula.binary "&" l x) m = some (a && bx) := by
      cases a <;> cases bx <;> simp [evaluate, ha, hbx]
    have hx : (evaluate x m == some true) = bx := by
      rw [hbx]
      cases bx <;> rfl
    rw [List.foldl_cons,
      ih (Formula.binary "&" l x) (a && bx) hstep
        (fun y hy => hall y (List.mem_cons_of_mem x hy))]
    simp [List.all_cons, hx, Bool.and_assoc]

/-- Evaluating a left fold of disjunctions. -/
lemma eval_foldl_or (m : Model) : ∀ (ls : List Formula) (l : Formula) (a : Bool),
    evaluate l m = some a → (∀ x ∈ ls, ∃ bx, evaluate x m = some bx) →
    evaluate (ls.foldl (fun acc lit => Formula.binary "|" acc lit) l) m =
      some (a || ls.any (fun x => evaluate x m == some true)) := by
  intro ls
  induction ls with
  | nil =>
    intro l a ha _
    simpa using ha
  | cons x xs ih =>
    intro l a ha hall
    obtain ⟨bx, hbx⟩ := hall x (List.mem_cons_self x xs)
    have hstep : evaluate (Formula.binary "|" l x) m = some (a || bx) := by
      cases a <;> cases bx <;> simp [evaluate, ha, hbx]
    have hx : (evaluate x m == some true) = bx := by
      rw [hbx]
      cases bx <;> rfl
    rw [List.foldl_cons,
      ih (Formula.binary "|" l x) (a || bx) hstep
        (fun y hy => hall y (List.mem_cons_of_mem x hy))]
    simp [List.any_cons, hx, Bool.or_assoc]

lemma lookup_zip_isSome : ∀ (vs : List String) (t : List Bool) (v : String),
    t.length = vs.length → v ∈ vs → ∃ b, assocLookup (vs.zip t) v = some b := by
  intro vs
  induction vs with
  | nil =>
    intro t v _ hv
    exact absurd hv (List.not_mem_nil v)
  | cons w ws ih =>
    intro t v hl hv
    cases t with
    | nil => simp at hl
    | cons b bs =>
      have hz : (w :: ws).zip (b :: bs) = (w, b) :: ws.zip bs := rfl
      by_cases hw : w = v
      · exact ⟨b, by rw [hz]; simp only [assocLookup, if_pos hw]⟩
      · have hv' : v ∈ ws := by
          rcases List.mem_cons.mp hv with h | h
          · exact absurd h.symm hw
          · exact h
        obtain ⟨b', hb'⟩ := ih bs v (by simpa using hl) hv'
        refine ⟨b', ?_⟩
        rw [hz]
        simp only [assocLookup, if_neg hw]
        exact hb'

lemma lookup_zip_agree : ∀ (vs : List String), vs.Nodup →
    ∀ (t t' : List Bool), t.length = vs.length → t'.length = vs.length →
    ((∀ v ∈ vs, assocLookup (vs.zip t') v = assocLookup (vs.zip t) v) ↔ t' = t) := by
  intro vs
  induction vs with
  | nil =>
    intro _ t t' hl hl'
    cases t with
    | cons _ _ => simp at hl
    | nil =>
      cases t' with
      | cons _ _ => simp at hl'
      | nil => simp
  | cons w ws ih =>
    intro hnd t t' hl hl'
    rw [List.nodup_cons] at hnd
    obtain ⟨hw, hnd'⟩ := hnd
    cases t with
    | nil => simp at hl
    | cons b bs =>
      cases t' with
      | nil => simp at hl'
      | cons b' bs' =>
        constructor
        · intro hagree
          have hhead := hagree w (List.mem_cons_self w ws)
          simp [assocLookup] at hhead
          have htail : ∀ v ∈ ws,
              assocLookup (ws.zip bs') v = assocLookup (ws.zip bs) v := by
            intro v hv
            have hne : w ≠ v := fun hc => hw (hc ▸ hv)
            have := hagree v (List.mem_cons_of_mem w hv)
            simpa [assocLookup, hne] using this
          have := (ih hnd' bs bs' (by simpa using hl) (by simpa using hl')).mp htail
          rw [hhead, this]
        · intro heq
          rw [heq]
          intro v _
          rfl

/-- The conjunctive clause of `_synthesize_for_model` built from the
model `vs.zip t` evaluates, under any model `vs.zip t'` over the same
distinct variables, to true exactly when `t' = t`. -/
lemma synthesizeForModel_eval {vs : List String} (hnd : vs.Nodup) (hne : vs ≠ [])
    {t t' : List Bool} (hl : t.length = vs.length) (hl' : t'.length = vs.length) :
    ∃ c, synthesizeForModel (vs.zip t) = some c ∧
      evaluate c (vs.zip t') = some (decide (t' = t)) := by
  have hkeys : (vs.zip t).map Prod.fst = vs := List.map_fst_zip _ _ (by omega)
  have hsne : sortStrs vs ≠ [] := by
    intro hc
    have hlen := length_sortStrs vs
    rw [hc] at hlen
    cases vs with
    | nil => exact hne rfl
    | cons a b => simp at hlen
  obtain ⟨v0, vrest, hsort⟩ : ∃ v0 vrest, sortStrs vs = v0 :: vrest := by
    cases h : sortStrs vs with
    | nil => exact absurd h hsne
    | cons a b => exact ⟨a, b, rfl⟩
  have hlit : ∀ v ∈ vs,
      evaluate (if assocLookup (vs.zip t) v = some true then Formula.var v
        else Formula.unary "~" (Formula.var v)) (vs.zip t') =
      some (assocLookup (vs.zip t') v == assocLookup (vs.zip t) v) := by
    intro v hv
    obtain ⟨bv, hbv⟩ := lookup_zip_isSome vs t v hl hv
    obtain ⟨bv', hbv'⟩ := lookup_zip_isSome vs t' v hl' hv
    rw [hbv, hbv']
    cases bv <;> cases bv' <;> simp [evaluate, hbv']
  have hmemsort : ∀ v ∈ sortStrs vs, v ∈ vs := fun v hv => mem_sortStrs.mp hv
  refine ⟨(vrest.map (fun v =>
      if assocLookup (vs.zip t) v = some true then Formula.var v
      else Formula.unary "~" (Formula.var v))).foldl
      (fun acc lit => Formula.binary "&" acc lit)
      (if assocLookup (vs.zip t) v0 = some true then Formula.var v0
       else Formula.unary "~" (Formula.var v0)), ?_, ?_⟩
  · simp only [synthesizeForModel, hkeys, hsort, List.map_cons]
  · have h0 := hlit v0 (hmemsort v0 (hsort ▸ List.mem_cons_self v0 vrest))
    have hexists : ∀ x ∈ vrest.map (fun v =>
        if assocLookup (vs.zip t) v = some true then Formula.var v
        else Formula.unary "~" (Formula.var v)),
        ∃ bx, evaluate x (vs.zip t') = some bx := by
      intro x hx
      rcases List.mem_map.mp hx with ⟨v, hv, rfl⟩
      exact ⟨_, hlit v (hmemsort v (hsort ▸ List.mem_cons_of_mem v0 hv))⟩
    rw [eval_foldl_and (vs.zip t') _ _ _ h0 hexists]
    congr 1
    have hallmap : (vrest.map (fun v =>
        if assocLookup (vs.zip t) v = some true then Formula.var v
        else Formula.unary "~" (Formula.var v))).all
          (fun x => evaluate x (vs.zip t') == some true) =
        vrest.all (fun v =>
          assocLookup (vs.zip t') v == assocLookup (vs.zip t) v) := by
      rw [all_map_comp]
      apply all_congr_mem
      intro v hv
      rw [hlit v (hmemsort v (hsort ▸ List.mem_cons_of_mem v0 hv))]
      cases hb : (assocLookup (vs.zip t') v == assocLookup (vs.zip t) v) <;> rfl
    rw [hallmap]
    have hcons : ((assocLookup (vs.zip t') v0 == assocLookup (vs.zip t) v0) &&
        vrest.all (fun v =>
          assocLookup (vs.zip t') v == assocLookup (vs.zip t) v)) =
        (sortStrs vs).all (fun v =>
          assocLookup (vs.zip t') v == assocLookup (vs.zip t) v) := by
      rw [hsort, List.all_cons]
    rw [hcons, all_of_mem_iff (fun x => mem_sortStrs)]
    apply bool_eq_of_iff
    rw [decide_eq_true_eq]
    simp only [List.all_eq_true]
    constructor
    · intro h
      apply (lookup_zip_agree vs hnd t t' hl hl').mp
      intro v hv
      exact eq_of_beq (h v hv)
    · intro heq v _
      rw [heq]
      exact beq_self_eq_true _

/-- The disjunctive clause of `_synthesize_for_all_except_model` built
from `vs.zip t` evaluates under `vs.zip t'` to false exactly when
`t' = t`. -/
lemma synthesizeForAllExceptModel_eval {vs : List String} (hnd : vs.Nodup)
    (hne : vs ≠ []) {t t' : List Bool} (hl : t.length = vs.length)
    (hl' : t'.length = vs.length) :
    ∃ c, synthesizeForAllExceptModel (vs.zip t) = some c ∧
      evaluate c (vs.zip t') = some (!(decide (t' = t))) := by
  have hkeys : (vs.zip t).map Prod.fst = vs := List.map_fst_zip _ _ (by omega)
  have hsne : sortStrs vs ≠ [] := by
    intro hc
    have hlen := length_sortStrs vs
    rw [hc] at hlen
    cases vs with
    | nil => exact hne rfl
    | cons a b => simp at hlen
  obtain ⟨v0, vrest, hsort⟩ : ∃ v0 vrest, sortStrs vs = v0 :: vrest := by
    cases h : sortStrs vs with
    | nil => exact absurd h hsne
    | cons a b => exact ⟨a, b, rfl⟩
  have hlit : ∀ v ∈ vs,
      evaluate (if assocLookup (vs.zip t) v = some true
        then Formula.unary "~" (Formula.var v) else Formula.var v) (vs.zip t') =
      some (!(assocLookup (vs.zip t') v == assocLookup (vs.zip t) v)) := by
    intro v hv
    obtain ⟨bv, hbv⟩ := lookup_zip_isSome vs t v hl hv
    obtain ⟨bv', hbv'⟩ := lookup_zip_isSome vs t' v hl' hv
    rw [hbv, hbv']
    cases bv <;> cases bv' <;> simp [evaluate, hbv']
  have hmemsort : ∀ v ∈ sortStrs vs, v ∈ vs := fun v hv => mem_sortStrs.mp hv
  refine ⟨(vrest.map (fun v =>
      if assocLookup (vs.zip t) v = some true
      then Formula.unary "~" (Formula.var v) else Formula.var v)).foldl
      (fun acc lit => Formula.binary "|" acc lit)
      (if assocLookup (vs.zip t) v0 = some true
       then Formula.unary "~" (Formula.var v0) else Formula.var v0), ?_, ?_⟩
  · simp only [synthesizeForAllExceptModel, hkeys, hsort, List.map_cons]
  · have h0 := hlit v0 (hmemsort v0 (hsort ▸ List.mem_cons_self v0 vrest))
    have hexists : ∀ x ∈ vrest.map (fun v =>
        if assocLookup (vs.zip t) v = some true
        then Formula.unary "~" (Formula.var v) else Formula.var v),
        ∃ bx, evaluate x (vs.zip t') = some bx := by
      intro x hx
      rcases List.mem_map.mp hx with ⟨v, hv, rfl⟩
      exact ⟨_, hlit v (hmemsort v (hsort ▸ List.mem_cons_of_mem v0 hv))⟩
    rw [eval_foldl_or (vs.zip t') _ _ _ h0 hexists]
    congr 1
    have hallmap : (vrest.map (fun v =>
        if assocLookup (vs.zip t) v = some true
        then Formula.unary "~" (Formula.var v) else Formula.var v)).any
          (fun x => evaluate x (vs.zip t') == some true) =
        vrest.any (fun v =>
          !(assocLookup (vs.zip t') v == assocLookup (vs.zip t) v)) := by
      rw [any_map_comp]
      apply bool_eq_of_iff
      simp only [List.any_eq_true]
      constructor
      · rintro ⟨v, hv, hval⟩
        refine ⟨v, hv, ?_⟩
        rw [hlit v (hmemsort v (hsort ▸ List.mem_cons_of_mem v0 hv))] at hval
        exact by simpa using hval
      · rintro ⟨v, hv, hval⟩
        refine ⟨v, hv, ?_⟩
        rw [hlit v (hmemsort v (hsort ▸ List.mem_cons_of_mem v0 hv))]
        simpa using hval
    rw [hallmap]
    have hcons : ((!(assocLookup (vs.zip t') v0 == assocLookup (vs.zip t) v0)) ||
        vrest.any (fun v =>
          !(assocLookup (vs.zip t') v == assocLookup (vs.zip t) v))) =
        (sortStrs vs).any (fun v =>
          !(assocLookup (vs.zip t') v == assocLookup (vs.zip t) v)) := by
      rw [hsort, List.any_cons]
    rw [hcons]
    have hiff : (sortStrs vs).any (fun v =>
        !(assocLookup (vs.zip t') v == assocLookup (vs.zip t) v)) =
        vs.any (fun v =>
          !(assocLookup (vs.zip t') v == assocLookup (vs.zip t) v)) := by
      apply bool_eq_of_iff
      simp only [List.any_eq_true]
      constructor
      · rintro ⟨v, hv, h⟩
        exact ⟨v, mem_sortStrs.mp hv, h⟩
      · rintro ⟨v, hv, h⟩
        exact ⟨v, mem_sortStrs.mpr hv, h⟩
    rw [hiff, any_bang_eq_not_all]
    congr 1
    apply bool_eq_of_iff
    rw [decide_eq_true_eq]
    simp only [List.all_eq_true]
    constructor
    · intro h
      apply (lookup_zip_agree vs hnd t t' hl hl').mp
      intro v hv
      exact eq_of_beq (h v hv)
    · intro heq v _
      rw [heq]
      exact beq_self_eq_true _

lemma mapM_loop_eq {α β : Type} (f : α → Option β) (g : α → β) :
    ∀ (l : List α) (acc : List β), (∀ x ∈ l, f x = some (g x)) →
      List.mapM.loop f l acc = some (acc.reverse ++ l.map g) := by
  intro l
  induction l with
  | nil =>
    intro acc _
    simp [List.mapM.loop]
  | cons x xs ih =>
    intro acc h
    rw [List.mapM.loop, h x (List.mem_cons_self x xs)]
    show List.mapM.loop f xs (g x :: acc) = _
    rw [ih (g x :: acc) (fun y hy => h y (List.mem_cons_of_mem x hy))]
    simp

lemma mapM_eq_some_map {α β : Type} (f : α → Option β) (g : α → β)
    (l : List α) (h : ∀ x ∈ l, f x = some (g x)) :
    l.mapM f = some (l.map g) := by
  show List.mapM.loop f l [] = _
  rw [mapM_loop_eq f g l [] h]
  simp

/-- The DNF selector: in the filtered true-rows of the truth table, a
row equal to row `j` exists exactly when row `j` itself is true. -/
lemma key_dnf : ∀ (ts : List (List Bool)) (values : List Bool) (j : Nat),
    ts.Nodup → ∀ (hj : j < ts.length) (hjv : j < values.length),
    ((ts.zip values).filter (fun q => q.2)).any
      (fun q => decide (ts[j] = q.1)) = values[j] := by
  intro ts
  induction ts with
  | nil =>
    intro values j _ hj _
    simp at hj
  | cons t ts' ih =>
    intro values j hnd hj hjv
    cases values with
    | nil => simp at hjv
    | cons v values' =>
      rw [List.nodup_cons] at hnd
      obtain ⟨ht, hnd'⟩ := hnd
      have hzip : (t :: ts').zip (v :: values') = (t, v) :: ts'.zip values' := rfl
      cases j with
      | zero =>
        simp only [List.getElem_cons_zero, hzip, List.filter_cons]
        cases v
        · rw [if_neg (by simp)]
          rw [List.any_eq_false]
          intro q hq
          have hq1 : q.1 ∈ ts' := by
            rcases List.of_mem_zip (List.mem_of_mem_filter hq) with ⟨h1, _⟩
            exact h1
          simp only [decide_eq_true_eq]
          intro hc
          exact ht (hc ▸ hq1)
        · rw [if_pos (by simp)]
          simp [List.any_cons]
      | succ k =>
        have hk : k < ts'.length := by simpa using hj
        have hkv : k < values'.length := by simpa using hjv
        simp only [List.getElem_cons_succ, hzip, List.filter_cons]
        cases v
        · rw [if_neg (by simp)]
          exact ih values' k hnd' hk hkv
        · rw [if_pos (by simp)]
          rw [List.any_cons]
          have hne : ¬(ts'[k] = t) := by
            intro hc
            exact ht (hc ▸ List.getElem_mem hk)
          rw [decide_eq_false hne, Bool.false_or]
          exact ih values' k hnd' hk hkv

/-- The CNF selector: every filtered false-row differs from row `j`
exactly when row `j` is true. -/
lemma key_cnf : ∀ (ts : List (List Bool)) (values : List Bool) (j : Nat),
    ts.Nodup → ∀ (hj : j < ts.length) (hjv : j < values.length),
    ((ts.zip values).filter (fun q => !q.2)).all
      (fun q => !(decide (ts[j] = q.1))) = values[j] := by
  intro ts
  induction ts with
  | nil =>
    intro values j _ hj _
    simp at hj
  | cons t ts' ih =>
    intro values j hnd hj hjv
    cases values with
    | nil => simp at hjv
    | cons v values' =>
      rw [List.nodup_cons] at hnd
      obtain ⟨ht, hnd'⟩ := hnd
      have hzip : (t :: ts').zip (v :: values') = (t, v) :: ts'.zip values' := rfl
      cases j with
      | zero =>
        simp only [List.getElem_cons_zero, hzip, List.filter_cons]
        cases v
        · rw [if_pos (by simp)]
          simp [List.all_cons]
        · rw [if_neg (by simp)]
          rw [List.all_eq_true]
          intro q hq
          have hq1 : q.1 ∈ ts' := by
            rcases List.of_mem_zip (List.mem_of_mem_filter hq) with ⟨h1, _⟩
            exact h1
          have hd : decide (t = q.1) = false :=
            decide_eq_false (fun hc => ht (hc ▸ hq1))
          show (!(decide (t = q.1))) = true
          rw [hd]
          rfl
      | succ k =>
        have hk : k < ts'.length := by simpa using hj
        have hkv : k < values'.length := by simpa using hjv
        simp only [List.getElem_cons_succ, hzip, List.filter_cons]
        cases v
        · rw [if_pos (by simp)]
          rw [List.all_cons]
          have hne : ¬(ts'[k] = t) := by
            intro hc
            exact ht (hc ▸ List.getElem_mem hk)
          rw [decide_eq_false hne]
          rw [show ((!false) : Bool) = true from rfl, Bool.true_and]
          exact ih values' k hnd' hk hkv
        · rw [if_neg (by simp)]
          exact ih values' k hnd' hk hkv

lemma any_congr_mem {α : Type} :
    ∀ (l : List α) (p q : α → Bool), (∀ a ∈ l, p a = q a) → l.any p = l.any q
  | [], _, _, _ => rfl
  | x :: xs, p, q, h => by
    simp only [List.any_cons, h x (List.mem_cons_self x xs)]
    rw [any_congr_mem xs p q (fun a ha => h a (List.mem_cons_of_mem x ha))]

lemma filter_map_comm {α β : Type} (f : α → β) (p : β → Bool) (l : List α) :
    (l.map f).filter p = (l.filter (fun a => p (f a))).map f := by
  induction l with
  | nil => rfl
  | cons x xs ih =>
    by_cases h : p (f x) = true
    · simp [List.filter_cons, h, ih]
    · simp [List.filter_cons, h, ih]

/-- The DNF synthesized by `synthesize` over distinct variables has
exactly the requested truth column. -/
lemma synthesize_correct (vs : List String) (values : List Bool) (hne : vs ≠ [])
    (hnd : vs.Nodup) (hlen : values.length = 2 ^ vs.length) :
    ∃ g, synthesize vs values = some g ∧
      (all_models vs).map (fun m => evaluate g m) = values.map some := by
  have hts_len : (boolTuples vs.length).length = 2 ^ vs.length := length_boolTuples _
  have htsnd : (boolTuples vs.length).Nodup := nodup_boolTuples _
  have hmem_len : ∀ t ∈ boolTuples vs.length, t.length = vs.length :=
    fun t ht => length_mem_boolTuples ht
  have hmodels : all_models vs = (boolTuples vs.length).map (fun t => vs.zip t) := by
    unfold all_models
    exact List.map_congr_left (fun t ht => dictOfZip_eq_zip hnd (hmem_len t ht))
  have hCL : ∀ t, t.length = vs.length →
      synthesizeForModel (vs.zip t) =
        some ((synthesizeForModel (vs.zip t)).getD (Formula.const "F")) := by
    intro t ht
    obtain ⟨c, hc1, -⟩ := synthesizeForModel_eval hnd hne ht ht
    rw [hc1]
    rfl
  have hCLeval : ∀ t, t.length = vs.length → ∀ t', t'.length = vs.length →
      evaluate ((synthesizeForModel (vs.zip t)).getD (Formula.const "F"))
        (vs.zip t') = some (decide (t' = t)) := by
    intro t ht t' ht'
    obtain ⟨c, hc1, hc2⟩ := synthesizeForModel_eval hnd hne ht ht'
    rw [hc1]
    simpa using hc2
  have hfilter : ((all_models vs).zip values).filter (fun p => p.2) =
      (((boolTuples vs.length).zip values).filter (fun q => q.2)).map
        (Prod.map (fun t => vs.zip t) id) := by
    rw [hmodels, List.zip_map_left, filter_map_comm]
    rfl
  have hq1mem : ∀ q ∈ ((boolTuples vs.length).zip values).filter (fun q => q.2),
      q.1 ∈ boolTuples vs.length := by
    intro q hq
    exact (List.of_mem_zip (List.mem_of_mem_filter hq)).1
  have hmapM : (((all_models vs).zip values).filter (fun p => p.2)).mapM
      (fun p => synthesizeForModel p.1) =
      some ((((boolTuples vs.length).zip values).filter (fun q => q.2)).map
        (fun q => (synthesizeForModel (vs.zip q.1)).getD (Formula.const "F"))) := by
    rw [hfilter]
    have hpw : ∀ x ∈ (((boolTuples vs.length).zip values).filter
        (fun q => q.2)).map (Prod.map (fun t => vs.zip t) id),
        (fun p : Model × Bool => synthesizeForModel p.1) x =
          some ((fun p : Model × Bool =>
            (synthesizeForModel p.1).getD (Formula.const "F")) x) := by
      intro x hx
      rcases List.mem_map.mp hx with ⟨q, hq, rfl⟩
      exact hCL q.1 (hmem_len q.1 (hq1mem q hq))
    rw [mapM_eq_some_map _ _ _ hpw]
    rw [List.map_map]
    rfl
  have hsyn : synthesize vs values =
      (match (((boolTuples vs.length).zip values).filter (fun q => q.2)).map
        (fun q => (synthesizeForModel (vs.zip q.1)).getD (Formula.const "F")) with
       | [] =>
         match vs with
         | [] => none
         | v :: _ => some (.binary "&" (.var v) (.unary "~" (.var v)))
       | c :: cs => some (cs.foldl (fun acc cl => Formula.binary "|" acc cl) c)) := by
    simp only [synthesize]
    rw [hmapM]
    rfl
  cases hfil : ((boolTuples vs.length).zip values).filter (fun q => q.2) with
  | nil =>
    obtain ⟨v, vrest2, rfl⟩ : ∃ v r, vs = v :: r := by
      cases vs with
      | nil => exact absurd rfl hne
      | cons a b => exact ⟨a, b, rfl⟩
    refine ⟨.binary "&" (.var v) (.unary "~" (.var v)), ?_, ?_⟩
    · rw [hsyn, hfil]
      rfl
    · rw [hmodels, List.map_map]
      apply List.ext_getElem
      · simp only [List.length_map]
        rw [hts_len, hlen]
      intro j h1 h2
      have hjts : j < (boolTuples (v :: vrest2).length).length := by simpa using h1
      have hjv : j < values.length := by simpa using h2
      rw [List.getElem_map, List.getElem_map]
      have hjlen : (boolTuples (v :: vrest2).length)[j].length =
          (v :: vrest2).length := hmem_len _ (List.getElem_mem hjts)
      obtain ⟨b, hb⟩ := lookup_zip_isSome (v :: vrest2) _ v hjlen
        (List.mem_cons_self v vrest2)
      have hvj : values[j] = false := by
        have hall := List.filter_eq_nil_iff.mp hfil
        have hjz : j < ((boolTuples (v :: vrest2).length).zip values).length := by
          rw [List.length_zip]
          omega
        have hpair : ((boolTuples (v :: vrest2).length)[j], values[j]) ∈
            (boolTuples (v :: vrest2).length).zip values := by
          have hmem := List.getElem_mem hjz
          rwa [List.getElem_zip] at hmem
        have := hall _ hpair
        simpa using this
      have heval : evaluate (Formula.binary "&" (.var v) (.unary "~" (.var v)))
          ((v :: vrest2).zip (boolTuples (v :: vrest2).length)[j]) =
          some (b && !b) := by
        simp only [evaluate]
        rw [hb]
        rfl
      rw [Function.comp_apply, heval, hvj]
      cases b <;> rfl
  | cons q0 qrest =>
    have hq0mem : q0 ∈ ((boolTuples vs.length).zip values).filter (fun q => q.2) := by
      rw [hfil]
      exact List.mem_cons_self q0 qrest
    have hq0len := hmem_len q0.1 (hq1mem q0 hq0mem)
    refine ⟨(qrest.map (fun q =>
        (synthesizeForModel (vs.zip q.1)).getD (Formula.const "F"))).foldl
        (fun acc cl => Formula.binary "|" acc cl)
        ((synthesizeForModel (vs.zip q0.1)).getD (Formula.const "F")), ?_, ?_⟩
    · rw [hsyn, hfil]
      rfl
    · rw [hmodels, List.map_map]
      apply List.ext_getElem
      · simp only [List.length_map]
        rw [hts_len, hlen]
      intro j h1 h2
      have hjts : j < (boolTuples vs.length).length := by simpa using h1
      have hjv : j < values.length := by simpa using h2
      rw [List.getElem_map, List.getElem_map]
      have hjlen : (boolTuples vs.length)[j].length = vs.length :=
        hmem_len _ (List.getElem_mem hjts)
      have h0 : evaluate ((synthesizeForModel (vs.zip q0.1)).getD
          (Formula.const "F")) (vs.zip (boolTuples vs.length)[j]) =
          some (decide ((boolTuples vs.length)[j] = q0.1)) :=
        hCLeval q0.1 hq0len _ hjlen
      have hex : ∀ x ∈ qrest.map (fun q =>
          (synthesizeForModel (vs.zip q.1)).getD (Formula.const "F")),
          ∃ bx, evaluate x (vs.zip (boolTuples vs.length)[j]) = some bx := by
        intro x hx
        rcases List.mem_map.mp hx with ⟨q, hq, rfl⟩
        have hqmem : q ∈ ((boolTuples vs.length).zip values).filter
            (fun q => q.2) := by
          rw [hfil]
          exact List.mem_cons_of_mem q0 hq
        exact ⟨_, hCLeval q.1 (hmem_len q.1 (hq1mem q hqmem)) _ hjlen⟩
      rw [Function.comp_apply]
      rw [eval_foldl_or _ _ _ _ h0 hex]
      have hany : (qrest.map (fun q =>
          (synthesizeForModel (vs.zip q.1)).getD (Formula.const "F"))).any
            (fun x => evaluate x (vs.zip (boolTuples vs.length)[j]) ==
              some true) =
          qrest.any (fun q => decide ((boolTuples vs.length)[j] = q.1)) := by
        rw [any_map_comp]
        apply any_congr_mem
        intro q hq
        have hqmem : q ∈ ((boolTuples vs.length).zip values).filter
            (fun q => q.2) := by
          rw [hfil]
          exact List.mem_cons_of_mem q0 hq
        rw [hCLeval q.1 (hmem_len q.1 (hq1mem q hqmem)) _ hjlen]
        cases hd : decide ((boolTuples vs.length)[j] = q.1) <;> rfl
      rw [hany]
      have hback : (decide ((boolTuples vs.length)[j] = q0.1) ||
          qrest.any (fun q => decide ((boolTuples vs.length)[j] = q.1))) =
          (((boolTuples vs.length).zip values).filter (fun q => q.2)).any
            (fun q => decide ((boolTuples vs.length)[j] = q.1)) := by
        rw [hfil, List.any_cons]
      rw [hback]
      exact congrArg some (key_dnf (boolTuples vs.length) values j htsnd hjts hjv)

/-- The CNF synthesized by `synthesize_cnf` over distinct variables has
exactly the requested truth column. -/
lemma synthesize_cnf_correct (vs : List String) (values : List Bool) (hne : vs ≠ [])
    (hnd : vs.Nodup) (hlen : values.length = 2 ^ vs.length) :
    ∃ g, synthesize_cnf vs values = some g ∧
      (all_models vs).map (fun m => evaluate g m) = values.map some := by
  have hts_len : (boolTuples vs.length).length = 2 ^ vs.length := length_boolTuples _
  have htsnd : (boolTuples vs.length).Nodup := nodup_boolTuples _
  have hmem_len : ∀ t ∈ boolTuples vs.length, t.length = vs.length :=
    fun t ht => length_mem_boolTuples ht
  have hmodels : all_models vs = (boolTuples vs.length).map (fun t => vs.zip t) := by
    unfold all_models
    exact List.map_congr_left (fun t ht => dictOfZip_eq_zip hnd (hmem_len t ht))
  have hCL : ∀ t, t.length = vs.length →
      synthesizeForAllExceptModel (vs.zip t) =
        some ((synthesizeForAllExceptModel (vs.zip t)).getD (Formula.const "F")) := by
    intro t ht
    obtain ⟨c, hc1, -⟩ := synthesizeForAllExceptModel_eval hnd hne ht ht
    rw [hc1]
    rfl
  have hCLeval : ∀ t, t.length = vs.length → ∀ t', t'.length = vs.length →
      evaluate ((synthesizeForAllExceptModel (vs.zip t)).getD (Formula.const "F"))
        (vs.zip t') = some (!(decide (t' = t))) := by
    intro t ht t' ht'
    obtain ⟨c, hc1, hc2⟩ := synthesizeForAllExceptModel_eval hnd hne ht ht'
    rw [hc1]
    simpa using hc2
  have hfilter : ((all_models vs).zip values).filter (fun p => !p.2) =
      (((boolTuples vs.length).zip values).filter (fun q => !q.2)).map
        (Prod.map (fun t => vs.zip t) id) := by
    rw [hmodels, List.zip_map_left, filter_map_comm]
    rfl
  have hq1mem : ∀ q ∈ ((boolTuples vs.length).zip values).filter (fun q => !q.2),
      q.1 ∈ boolTuples vs.length := by
    intro q hq
    exact (List.of_mem_zip (List.mem_of_mem_filter hq)).1
  have hmapM : (((all_models vs).zip values).filter (fun p => !p.2)).mapM
      (fun p => synthesizeForAllExceptModel p.1) =
      some ((((boolTuples vs.length).zip values).filter (fun q => !q.2)).map
        (fun q => (synthesizeForAllExceptModel (vs.zip q.1)).getD
          (Formula.const "F"))) := by
    rw [hfilter]
    have hpw : ∀ x ∈ (((boolTuples vs.length).zip values).filter
        (fun q => !q.2)).map (Prod.map (fun t => vs.zip t) id),
        (fun p : Model × Bool => synthesizeForAllExceptModel p.1) x =
          some ((fun p : Model × Bool =>
            (synthesizeForAllExceptModel p.1).getD (Formula.const "F")) x) := by
      intro x hx
      rcases List.mem_map.mp hx with ⟨q, hq, rfl⟩
      exact hCL q.1 (hmem_len q.1 (hq1mem q hq))
    rw [mapM_eq_some_map _ _ _ hpw]
    rw [List.map_map]
    rfl
  have hsyn : synthesize_cnf vs values =
      (match (((boolTuples vs.length).zip values).filter (fun q => !q.2)).map
        (fun q => (synthesizeForAllExceptModel (vs.zip q.1)).getD
          (Formula.const "F")) with
       | [] =>
         match vs with
         | [] => none
         | v :: _ => some (.binary "|" (.var v) (.unary "~" (.var v)))
       | c :: cs => some (cs.foldl (fun acc cl => Formula.binary "&" acc cl) c)) := by
    simp only [synthesize_cnf]
    rw [hmapM]
    rfl
  cases hfil : ((boolTuples vs.length).zip values).filter (fun q => !q.2) with
  | nil =>
    obtain ⟨v, vrest2, rfl⟩ : ∃ v r, vs = v :: r := by
      cases vs with
      | nil => exact absurd rfl hne
      | cons a b => exact ⟨a, b, rfl⟩
    refine ⟨.binary "|" (.var v) (.unary "~" (.var v)), ?_, ?_⟩
    · rw [hsyn, hfil]
      rfl
    · rw [hmodels, List.map_map]
      apply List.ext_getElem
      · simp only [List.length_map]
        rw [hts_len, hlen]
      intro j h1 h2
      have hjts : j < (boolTuples (v :: vrest2).length).length := by simpa using h1
      have hjv : j < values.length := by simpa using h2
      rw [List.getElem_map, List.getElem_map]
      have hjlen : (boolTuples (v :: vrest2).length)[j].length =
          (v :: vrest2).length := hmem_len _ (List.getElem_mem hjts)
      obtain ⟨b, hb⟩ := lookup_zip_isSome (v :: vrest2) _ v hjlen
        (List.mem_cons_self v vrest2)
      have hvj : values[j] = true := by
        have hall := List.filter_eq_nil_iff.mp hfil
        have hjz : j < ((boolTuples (v :: vrest2).length).zip values).length := by
          rw [List.length_zip]
          omega
        have hpair : ((boolTuples (v :: vrest2).length)[j], values[j]) ∈
            (boolTuples (v :: vrest2).length).zip values := by
          have hmem := List.getElem_mem hjz
          rwa [List.getElem_zip] at hmem
        have := hall _ hpair
        simpa using this
      have heval : evaluate (Formula.binary "|" (.var v) (.unary "~" (.var v)))
          ((v :: vrest2).zip (boolTuples (v :: vrest2).length)[j]) =
          some (b || !b) := by
        simp only [evaluate]
        rw [hb]
        rfl
      rw [Function.comp_apply, heval, hvj]
      cases b <;> rfl
  | cons q0 qrest =>
    have hq0mem : q0 ∈ ((boolTuples vs.length).zip values).filter
        (fun q => !q.2) := by
      rw [hfil]
      exact List.mem_cons_self q0 qrest
    have hq0len := hmem_len q0.1 (hq1mem q0 hq0mem)
    refine ⟨(qrest.map (fun q =>
        (synthesizeForAllExceptModel (vs.zip q.1)).getD (Formula.const "F"))).foldl
        (fun acc cl => Formula.binary "&" acc cl)
        ((synthesizeForAllExceptModel (vs.zip q0.1)).getD (Formula.const "F")),
        ?_, ?_⟩
    · rw [hsyn, hfil]
      rfl
    · rw [hmodels, List.map_map]
      apply List.ext_getElem
      · simp only [List.length_map]
        rw [hts_len, hlen]
      intro j h1 h2
      have hjts : j < (boolTuples vs.length).length := by simpa using h1
      have hjv : j < values.length := by simpa using h2
      rw [List.getElem_map, List.getElem_map]
      have hjlen : (boolTuples vs.length)[j].length = vs.length :=
        hmem_len _ (List.getElem_mem hjts)
      have h0 : evaluate ((synthesizeForAllExceptModel (vs.zip q0.1)).getD
          (Formula.const "F")) (vs.zip (boolTuples vs.length)[j]) =
          some (!(decide ((boolTuples vs.length)[j] = q0.1))) :=
        hCLeval q0.1 hq0len _ hjlen
      have hex : ∀ x ∈ qrest.map (fun q =>
          (synthesizeForAllExceptModel (vs.zip q.1)).getD (Formula.const "F")),
          ∃ bx, evaluate x (vs.zip (boolTuples vs.length)[j]) = some bx := by
        intro x hx
        rcases List.mem_map.mp hx with ⟨q, hq, rfl⟩
        have hqmem : q ∈ ((boolTuples vs.length).zip values).filter
            (fun q => !q.2) := by
          rw [hfil]
          exact List.mem_cons_of_mem q0 hq
        exact ⟨_, hCLeval q.1 (hmem_len q.1 (hq1mem q hqmem)) _ hjlen⟩
      rw [Function.comp_apply]
      rw [eval_foldl_and _ _ _ _ h0 hex]
      have hall2 : (qrest.map (fun q =>
          (synthesizeForAllExceptModel (vs.zip q.1)).getD (Formula.const "F"))).all
            (fun x => evaluate x (vs.zip (boolTuples vs.length)[j]) ==
              some true) =
          qrest.all (fun q => !(decide ((boolTuples vs.length)[j] = q.1))) := by
        rw [all_map_comp]
        apply all_congr_mem
        intro q hq
        have hqmem : q ∈ ((boolTuples vs.length).zip values).filter
            (fun q => !q.2) := by
          rw [hfil]
          exact List.mem_cons_of_mem q0 hq
        rw [hCLeval q.1 (hmem_len q.1 (hq1mem q hqmem)) _ hjlen]
        cases hd : decide ((boolTuples vs.length)[j] = q.1) <;> rfl
      rw [hall2]
      have hback : ((!(decide ((boolTuples vs.length)[j] = q0.1))) &&
          qrest.all (fun q => !(decide ((boolTuples vs.length)[j] = q.1)))) =
          (((boolTuples vs.length).zip values).filter (fun q => !q.2)).all
            (fun q => !(decide ((boolTuples vs.length)[j] = q.1))) := by
        rw [hfil, List.all_cons]
      rw [hback]
      exact congrArg some (key_cnf (boolTuples vs.length) values j htsnd hjts hjv)

/-- C3: the claim as stated is false: it requires no distinctness of the
variable names, but for the duplicated list vs = ["p", "p"] and
values = [true, false, false, false] (a nonempty list with
|values| = 2 ^ |vs|), the truth column of synthesize(vs, values) over
all_models(vs) is [true, false, true, false], not values: dict(zip(..))
collapses the duplicated key, so every model assigns both positions of
"p" the same value and the requested column is unrealizable. -/
theorem C3_synthesis_counterexample :
    ("p" :: "p" :: []) ≠ ([] : List String) ∧
    ([true, false, false, false] : List Bool).length =
      2 ^ (["p", "p"] : List String).length ∧
    (synthesize ["p", "p"] [true, false, false, false]).map
      (fun g => (all_models ["p", "p"]).map (fun m => evaluate g m)) ≠
      some ([true, false, false, false].map some) :=
  ⟨by decide, by decide, by decide⟩

/-- C3 (amended): for every nonempty list vs of DISTINCT variable names and
every boolean list values with |values| = 2 ^ |vs|, synthesize(vs, values)
and synthesize_cnf(vs, values) are defined and their truth columns over
all_models(vs) are exactly values; moreover whenever every value is false,
synthesize(v :: rest, values) is the fixed unsatisfiable formula (v&~v)
over the first variable, and whenever every value is true,
synthesize_cnf(v :: rest, values) is the fixed tautology (v|~v). -/
theorem C3_synthesis_amended :
    (∀ (vs : List String) (values : List Bool), vs ≠ [] → vs.Nodup →
      values.length = 2 ^ vs.length →
      ∃ g, synthesize vs values = some g ∧
        (all_models vs).map (fun m => evaluate g m) = values.map some) ∧
    (∀ (vs : List String) (values : List Bool), vs ≠ [] → vs.Nodup →
      values.length = 2 ^ vs.length →
      ∃ g, synthesize_cnf vs values = some g ∧
        (all_models vs).map (fun m => evaluate g m) = values.map some) ∧
    (∀ (v : String) (rest : List String) (values : List Bool),
      values.all (fun b => !b) = true →
      synthesize (v :: rest) values =
        some (.binary "&" (.var v) (.unary "~" (.var v)))) ∧
    (∀ (v : String) (rest : List String) (values : List Bool),
      values.all (fun b => b) = true →
      synthesize_cnf (v :: rest) values =
        some (.binary "|" (.var v) (.unary "~" (.var v)))) := by
  refine ⟨synthesize_correct, synthesize_cnf_correct, ?_, ?_⟩
  · intro v rest values hall
    have hfil : ((all_models (v :: rest)).zip values).filter
        (fun p => p.2) = [] := by
      rw [List.filter_eq_nil_iff]
      intro p hp
      have h2 := (List.of_mem_zip hp).2
      have hb := List.all_eq_true.mp hall p.2 h2
      simp only [Bool.not_eq_eq_eq_not, Bool.not_true] at hb
      simp [hb]
    simp only [synthesize]
    rw [hfil]
    rfl
  · intro v rest values hall
    have hfil : ((all_models (v :: rest)).zip values).filter
        (fun p => !p.2) = [] := by
      rw [List.filter_eq_nil_iff]
      intro p hp
      have h2 := (List.of_mem_zip hp).2
      have hb := List.all_eq_true.mp hall p.2 h2
      simp [hb]
    simp only [synthesize_cnf]
    rw [hfil]
    rfl

/-- Witness for C3 (amended) at vs = ["p", "q"],
values = [true, true, true, false], plus both edge cases over ["p"]. -/
theorem C3_synthesis_amended_witness :
    ((["p", "q"] : List String) ≠ [] ∧ (["p", "q"] : List String).Nodup ∧
      ([true, true, true, false] : List Bool).length =
        2 ^ (["p", "q"] : List String).length) ∧
    (∃ g, synthesize ["p", "q"] [true, true, true, false] = some g ∧
      (all_models ["p", "q"]).map (fun m => evaluate g m) =
        [true, true, true, false].map some) ∧
    (∃ g, synthesize_cnf ["p", "q"] [true, true, true, false] = some g ∧
      (all_models ["p", "q"]).map (fun m => evaluate g m) =
        [true, true, true, false].map some) ∧
    synthesize ["p"] [false, false] =
      some (.binary "&" (.var "p") (.unary "~" (.var "p"))) ∧
    synthesize_cnf ["p"] [true, true] =
      some (.binary "|" (.var "p") (.unary "~" (.var "p"))) :=
  ⟨⟨by decide, by decide, by decide⟩,
   C3_synthesis_amended.1 ["p", "q"] [true, true, true, false]
     (by decide) (by decide) (by decide),
   C3_synthesis_amended.2.1 ["p", "q"] [true, true, true, false]
     (by decide) (by decide) (by decide),
   C3_synthesis_amended.2.2.1 "p" [] [false, false] (by decide),
   C3_synthesis_amended.2.2.2 "p" [] [true, true] (by decide)⟩

/-! ### C10: classification of variable-free formulas -/

/-- C10: `all_models` on the empty variable list yields exactly the one
empty model, so the three classifiers evaluate a variable-free formula
in exactly that model; in particular `T` is a tautology and `F` is a
contradiction and unsatisfiable. -/
theorem C10_variable_free_classification :
    all_models ([] : List String) = [[]] ∧
    (∀ f : Formula, f.variables = [] →
      is_tautology f = evaluate f [] ∧
      is_contradiction f = (evaluate f []).map (!·) ∧
      is_satisfiable f = evaluate f []) ∧
    is_tautology (.const "T") = some true ∧
    is_contradiction (.const "F") = some true ∧
    is_satisfiable (.const "F") = some false := by
  refine ⟨by decide, ?_, by decide, by decide, by decide⟩
  intro f h
  have hs : sortedVariables f = [] := by simp [sortedVariables, h, removeDups, sortStrs]
  have hm : all_models (sortedVariables f) = [[]] := by rw [hs]; decide
  cases hE : evaluate f [] <;>
    simp [is_tautology, is_contradiction, is_satisfiable, truth_values, hm, hE,
      List.mapM, List.mapM.loop]

/-- C10 applied at the variable-free formula `T`. -/
theorem C10_variable_free_classification_witness :
    is_tautology (.const "T") = evaluate (.const "T") [] :=
  (C10_variable_free_classification.2.1 (.const "T") (by decide)).1

/-- C8 applied at a concrete mapped operator. -/
theorem C8_substitute_operators_template_instantiation_witness :
    (Formula.binary "&" (.var "x") (.var "y")).substitute_operators
        [("&", Formula.binary "|" (.var "q") (.var "p"))] =
      Formula.binary "|" (.var "y") (.var "x") := by
  rw [C8_substitute_operators_template_instantiation.2.2.2.2.2.2.1
    [("&", Formula.binary "|" (.var "q") (.var "p"))] "&" (.var "x") (.var "y")
    (Formula.binary "|" (.var "q") (.var "p")) (by decide)]
  decide

end MatLog
